import Mathlib

/-!
A shallow embedding of the job-control core of the `cush` shell
(`src/cush.c`) and proofs about it.

Modelling conventions:
* OS-level observations (results of `waitpid`, `posix_spawnp`, `pipe2`) are
  inputs to the model: they are consumed from explicit oracle lists and
  functions, mirroring the order in which the C code performs the calls.
* Side effects (printing, `kill` signals, terminal-state operations) are
  returned as an explicit list of `effect` values, in the order they occur.
* `termstate_management.c`, `signal_support.c` and `utils.c` are not part of
  the given source tree; the terminal-state operations are modelled from the
  spec (section 4.3), and `utils_fatal_error` from section 6 ("detected
  internal-consistency violations terminate immediately with a non-zero
  status and a diagnostic").
* Machine `int`s that can only hold small values (job ids, counters, pids)
  are modelled as `Nat`; `atoi` results, which can be negative, as `Int`.
* File-descriptor plumbing (`setup_file_actions`, `close_pipe`, the contents
  of `posix_spawn` attribute structures) is not modelled: no claim in scope
  depends on descriptor values, only on the control flow around the calls.
-/

namespace Cush

/-- `enum job_status` from cush.c. -/
inductive job_status where
  | FOREGROUND
  | BACKGROUND
  | STOPPED
  | NEEDSTERMINAL
  | TERMINATED
deriving DecidableEq, Repr

/-- `enum proc_status` from cush.c. -/
inductive proc_status where
  | PSTAT_RUNNING
  | PSTAT_STOPPED
deriving DecidableEq, Repr

/-- `struct ast_command` (from shell-ast.h, as used by cush.c):
`argv` plus the flag for duplicating stdout onto stderr. -/
structure ast_command where
  argv : List String
  dup_stderr_to_stdout : Bool
deriving DecidableEq, Repr

/-- `struct ast_pipeline` (from shell-ast.h, as used by cush.c). -/
structure ast_pipeline where
  commands : List ast_command
  iored_input : Option String
  iored_output : Option String
  append_to_output : Bool
  bg_job : Bool
deriving DecidableEq, Repr

/-- `struct process` from cush.c (`process_t`). -/
structure process_t where
  pid : Nat
  status : proc_status
  command : ast_command
deriving DecidableEq, Repr

/-- `struct job` from cush.c.  The `saved_tty_state` termios snapshot is
abstracted away (terminal-mode saves/restores appear as effects instead);
the intrusive `list_elem` is represented by membership of the job's id in
`shell_state.job_list`. -/
structure job where
  pipe : ast_pipeline
  jid : Nat
  status : job_status
  num_processes_alive : Nat
  pgid : Nat
  procs : List process_t
deriving DecidableEq, Repr

/-- `#define MAXJOBS (1<<16)` -/
def MAXJOBS : Nat := 65536

/-- Linux signal numbers used by cush.c. -/
def SIGKILL : Nat := 9
def SIGCHLD : Nat := 17
def SIGCONT : Nat := 18
def SIGSTOP : Nat := 19
def SIGTSTP : Nat := 20
def SIGTTIN : Nat := 21
def SIGTTOU : Nat := 22

/-- `ENOENT`, the errno value `posix_spawnp` yields for a missing program. -/
def ENOENT : Nat := 2

/-- The global mutable state of the shell: the two job-registry structures
(`jid2job` array and `job_list` list, the latter represented by the list of
job ids in insertion order), plus the terminal-ownership state.

Modelled from the spec (section 4.3): the Terminal Ownership Manager's
"process group currently recognized as owning the terminal" is the
`term_owner` field; `termstate_management.c` is not part of the source
tree. -/
structure shell_state where
  jid2job : Nat → Option job
  job_list : List Nat
  term_owner : Nat
  shell_pgrp : Nat

/-- Functional update of the `jid2job` array. -/
def jid2job_set (f : Nat → Option job) (k : Nat) (v : Option job) : Nat → Option job :=
  fun i => if i = k then v else f i

/-- Write job `j` back through the `jid2job` slot it occupies (in C the job
is a shared mutable struct; every mutation of a job is a write through this
slot). -/
def update_job (st : shell_state) (j : job) : shell_state :=
  { st with jid2job := jid2job_set st.jid2job j.jid (some j) }

/-- `get_job_from_jid` from cush.c:
returns the job when `jid > 0 && jid < MAXJOBS && jid2job[jid] != NULL`. -/
def get_job_from_jid (st : shell_state) (jid : Int) : Option job :=
  if 0 < jid ∧ jid < (MAXJOBS : Int) then st.jid2job jid.toNat else none

/-- The scan loop of `add_job`: starting at index `i` with `fuel` indices
left to try, return the first index whose `jid2job` slot is free. -/
def find_free_jid_from (used : Nat → Bool) : Nat → Nat → Option Nat
  | _, 0 => none
  | i, Nat.succ fuel => if used i then find_free_jid_from used (i + 1) fuel else some i

/-- `add_job` from cush.c.  Pushes the new job onto `job_list`, scans
`jid2job[1..MAXJOBS)` for the first free slot and installs the job there.
`none` models the `abort()` path ("Maximum number of jobs exceeded"): the
process terminates, no job value is ever returned to the caller.
As in C the struct starts with `num_processes_alive = 0` and its remaining
fields not yet meaningfully initialized (the caller in `shell_loop` sets
`pgid`, `procs` and `status` right afterwards); the placeholder values used
here for those fields are immediately overwritten on every call path. -/
def add_job (st : shell_state) (pipe : ast_pipeline) : Option (shell_state × job) :=
  match find_free_jid_from (fun i => (st.jid2job i).isSome) 1 (MAXJOBS - 1) with
  | some i =>
      let j : job := { pipe := pipe, jid := i, status := job_status.FOREGROUND,
                       num_processes_alive := 0, pgid := 0, procs := [] }
      some ({ st with jid2job := jid2job_set st.jid2job i (some j),
                      job_list := st.job_list ++ [i] }, j)
  | none => none

/-- `delete_job` from cush.c: clears the `jid2job` slot (and frees the job
and its pipeline; deallocation has no observable counterpart here).  As in
C this does not touch `job_list`; callers call `list_remove` separately. -/
def delete_job (st : shell_state) (jid : Nat) : shell_state :=
  { st with jid2job := jid2job_set st.jid2job jid none }

/-- `list_remove(&job->elem)` as performed by cush.c's callers. -/
def list_remove (st : shell_state) (jid : Nat) : shell_state :=
  { st with job_list := st.job_list.erase jid }

/-- `get_status` from cush.c. -/
def get_status : job_status → String
  | job_status.FOREGROUND => "Foreground"
  | job_status.BACKGROUND => "Running"
  | job_status.STOPPED => "Stopped"
  | job_status.NEEDSTERMINAL => "Stopped (tty)"
  | job_status.TERMINATED => "Unknown"

/-- The argv of one command as printed by `print_cmdline`:
first word, then each later word preceded by a space. -/
def argv_string : List String → String
  | [] => ""
  | a :: rest => rest.foldl (fun acc s => acc ++ " " ++ s) a

/-- `print_cmdline` from cush.c: commands joined by `"| "`. -/
def print_cmdline (p : ast_pipeline) : String :=
  match p.commands with
  | [] => ""
  | c :: rest =>
      rest.foldl (fun acc c2 => acc ++ "| " ++ argv_string c2.argv) (argv_string c.argv)

/-- The line `print_job` prints for one job. -/
def print_job_line (j : job) : String :=
  "[" ++ toString j.jid ++ "]\t" ++ get_status j.status ++ "\t\t(" ++
    print_cmdline j.pipe ++ ")\n"

/-- Observable side effects, in program order.
`tgive`/`tsave`/`tsample`/`tgiveback` are the Terminal Ownership Manager
operations (modelled from the spec, section 4.3). -/
inductive effect where
  | msg (s : String)
  | err (s : String)
  | sendsig (pgid : Nat) (sig : Nat)
  | tgive (pgid : Nat)
  | tsave (jid : Nat)
  | tsample
  | tgiveback
deriving DecidableEq, Repr

/-- A decoded `waitpid` status (`WIF*`/`W*` macros pattern-match on this). -/
inductive wstatus where
  | exited (code : Nat)
  | signaled (sig : Nat)
  | stopped (sig : Nat)
deriving DecidableEq, Repr

def WIFEXITED : wstatus → Bool
  | wstatus.exited _ => true
  | _ => false

def WEXITSTATUS : wstatus → Nat
  | wstatus.exited c => c
  | _ => 0

def WIFSIGNALED : wstatus → Bool
  | wstatus.signaled _ => true
  | _ => false

def WTERMSIG : wstatus → Nat
  | wstatus.signaled s => s
  | _ => 0

def WIFSTOPPED : wstatus → Bool
  | wstatus.stopped _ => true
  | _ => false

def WSTOPSIG : wstatus → Nat
  | wstatus.stopped s => s
  | _ => 0

/-- One result of a `waitpid` call: either a reapable child's (pid, status)
pair, or `nochild`, modelling a return value `<= 0` (no reapable child /
failure). -/
inductive wait_result where
  | child (pid : Nat) (status : wstatus)
  | nochild
deriving DecidableEq, Repr

/-- libc's `strsignal`.  Only the presence of the printed line matters for
the properties in scope, so the text is abstracted to the signal number. -/
def strsignal (sig : Nat) : String := "terminated by signal " ++ toString sig

/-- `all_procs_stopped` from cush.c: scans indices `0 ..
num_processes_alive-1` of the procs array. -/
def all_procs_stopped (j : job) : Bool :=
  (j.procs.take j.num_processes_alive).all
    (fun p => match p.status with
              | proc_status.PSTAT_STOPPED => true
              | proc_status.PSTAT_RUNNING => false)

/-- Index of the first element of `ps` whose pid is `pid`
(the inner scan of `find_pid`). -/
def find_proc_idx (pid : Nat) : List process_t → Option Nat
  | [] => none
  | p :: rest =>
      if p.pid = pid then some 0
      else (find_proc_idx pid rest).map (fun i => i + 1)

/-- The job-list scan of `find_pid`, iterating over the given job ids. -/
def find_pid_go (st : shell_state) (pid : Nat) : List Nat → Option (Nat × Nat)
  | [] => none
  | jid :: rest =>
      match st.jid2job jid with
      | none => find_pid_go st pid rest
      | some j =>
          match find_proc_idx pid (j.procs.take j.num_processes_alive) with
          | some i => some (jid, i)
          | none => find_pid_go st pid rest

/-- `find_pid` from cush.c: locate the job (by id) and the index of the
process with the given pid, scanning jobs in `job_list` order and each
job's first `num_processes_alive` procs entries. -/
def find_pid (st : shell_state) (pid : Nat) : Option (Nat × Nat) :=
  find_pid_go st pid st.job_list

/-- `proc->status = PSTAT_STOPPED` on the procs array entry at index `i`. -/
def set_proc_stopped : List process_t → Nat → List process_t
  | [], _ => []
  | p :: rest, 0 => { p with status := proc_status.PSTAT_STOPPED } :: rest
  | p :: rest, Nat.succ n => p :: set_proc_stopped rest n

/-- `handle_stopped_child` from cush.c, acting on the job in slot `jid`
whose procs entry at index `i` has the stopped pid.  Returns the new state
and the effects in program order. -/
def handle_stopped_child (st : shell_state) (jid : Nat) (i : Nat) (status : wstatus) :
    shell_state × List effect :=
  match st.jid2job jid with
  | none => (st, [])
  | some j =>
      if (WSTOPSIG status = SIGTTOU ∨ WSTOPSIG status = SIGTTIN) ∧
         j.status = job_status.FOREGROUND then
        ({ st with term_owner := j.pgid },
         [effect.tgive j.pgid, effect.sendsig j.pgid SIGCONT])
      else
        let j1 := { j with procs := set_proc_stopped j.procs i }
        if all_procs_stopped j1 then
          let newstatus :=
            if WSTOPSIG status = SIGTTOU ∨ WSTOPSIG status = SIGTTIN then
              job_status.NEEDSTERMINAL
            else job_status.STOPPED
          let j2 := { j1 with status := newstatus }
          (update_job st j2, [effect.tsave jid, effect.msg (print_job_line j2)])
        else
          (update_job st j1, [])

/-- `handle_terminated_child` from cush.c: print the signal description if
the child was signaled, remove the procs entry at index `i` (the `memmove`
shift, order-preserving) and decrement `num_processes_alive`; when the
count reaches zero, a foreground job is marked `TERMINATED` (re-sampling
the terminal mode first if the status was a successful exit) and left in
the registry, while any other job is removed from both structures. -/
def handle_terminated_child (st : shell_state) (jid : Nat) (i : Nat) (status : wstatus) :
    shell_state × List effect :=
  match st.jid2job jid with
  | none => (st, [])
  | some j =>
      let effs0 : List effect :=
        match status with
        | wstatus.signaled sig => [effect.msg (strsignal sig ++ "\n")]
        | _ => []
      let j1 := { j with procs := j.procs.eraseIdx i,
                         num_processes_alive := j.num_processes_alive - 1 }
      if j1.num_processes_alive = 0 then
        if j.status = job_status.FOREGROUND then
          let effs1 : List effect :=
            if WIFEXITED status = true ∧ WEXITSTATUS status = 0 then [effect.tsample]
            else []
          (update_job st { j1 with status := job_status.TERMINATED }, effs0 ++ effs1)
        else
          (delete_job (list_remove st jid) jid, effs0)
      else
        (update_job st j1, effs0)

/-- Result of one Status Reaper invocation: either updated state plus
effects, or the process-terminating internal-consistency error path
(`exit(1)` for an unrecognized pid). -/
inductive reap_result where
  | ok (st : shell_state) (effs : List effect)
  | fatal (code : Nat) (effs : List effect)

/-- `handle_child_status` from cush.c. -/
def handle_child_status (st : shell_state) (pid : Nat) (status : wstatus) : reap_result :=
  match find_pid st pid with
  | none =>
      reap_result.fatal 1
        [effect.err ("Received child status for unrecognized pid " ++ toString pid ++ "\n")]
  | some (jid, i) =>
      match status with
      | wstatus.stopped s =>
          let r := handle_stopped_child st jid i (wstatus.stopped s)
          reap_result.ok r.1 r.2
      | wstatus.exited c =>
          let r := handle_terminated_child st jid i (wstatus.exited c)
          reap_result.ok r.1 r.2
      | wstatus.signaled s =>
          let r := handle_terminated_child st jid i (wstatus.signaled s)
          reap_result.ok r.1 r.2

/-- The `sigchld_handler` drain loop from cush.c: repeat non-blocking
`waitpid` calls, feeding each reapable child to `handle_child_status`, and
stop silently as soon as `waitpid` returns a non-positive value
(`wait_result.nochild`; a spurious notification is ignored, not an error).
The oracle list running out also ends the loop (a real `waitpid` with
`WNOHANG` eventually returns a non-positive value). -/
def sigchld_handler : shell_state → List wait_result → reap_result
  | st, [] => reap_result.ok st []
  | st, wait_result.nochild :: _ => reap_result.ok st []
  | st, wait_result.child pid ws :: rest =>
      match handle_child_status st pid ws with
      | reap_result.ok st1 effs1 =>
          match sigchld_handler st1 rest with
          | reap_result.ok st2 effs2 => reap_result.ok st2 (effs1 ++ effs2)
          | reap_result.fatal c effs2 => reap_result.fatal c (effs1 ++ effs2)
      | reap_result.fatal c effs1 => reap_result.fatal c effs1

/-- Outcome of `wait_for_job`: `ok` carries the new state, the effects and
the *unconsumed* tail of the `waitpid` oracle; `fatal` is the
`utils_fatal_error` path (modelled from the spec, section 6: internal
errors terminate with a non-zero status); `blocked` means the oracle ran
out while the loop would still be blocking in `waitpid`. -/
inductive wait_outcome where
  | ok (st : shell_state) (effs : List effect) (rest : List wait_result)
  | fatal (code : Nat) (effs : List effect)
  | blocked (effs : List effect)

/-- The diagnostic `wait_for_job` passes to `utils_fatal_error`. -/
def waitpid_fail_msg : String := "waitpid failed, see code for explanation\n"

/-- `wait_for_job` from cush.c: while the job (slot `jid`) is `FOREGROUND`
and has live processes, block in `waitpid`; feed each observation to
`handle_child_status`; a `waitpid` failure here is a fatal
internal-consistency error.  (The C code reads the job through a pointer;
if the job's slot were emptied the loop reads freed memory — the model
ends the loop instead, a state no claim in scope depends on.) -/
def wait_for_job (jid : Nat) : shell_state → List wait_result → wait_outcome
  | st, [] =>
      match st.jid2job jid with
      | none => wait_outcome.ok st [] []
      | some j =>
          if j.status = job_status.FOREGROUND ∧ 0 < j.num_processes_alive then
            wait_outcome.blocked []
          else wait_outcome.ok st [] []
  | st, ev :: rest =>
      match st.jid2job jid with
      | none => wait_outcome.ok st [] (ev :: rest)
      | some j =>
          if j.status = job_status.FOREGROUND ∧ 0 < j.num_processes_alive then
            match ev with
            | wait_result.nochild => wait_outcome.fatal 1 [effect.err waitpid_fail_msg]
            | wait_result.child pid ws =>
                match handle_child_status st pid ws with
                | reap_result.ok st1 effs1 =>
                    match wait_for_job jid st1 rest with
                    | wait_outcome.ok st2 effs2 r => wait_outcome.ok st2 (effs1 ++ effs2) r
                    | wait_outcome.fatal c effs2 => wait_outcome.fatal c (effs1 ++ effs2)
                    | wait_outcome.blocked effs2 => wait_outcome.blocked (effs1 ++ effs2)
                | reap_result.fatal c effs1 => wait_outcome.fatal c effs1
          else wait_outcome.ok st [] (ev :: rest)

/-- Result of one builtin invocation (may run `wait_for_job` or exit the
shell).  `ok` carries the unconsumed `waitpid` oracle tail. -/
inductive bi_result where
  | ok (st : shell_state) (evs : List wait_result) (effs : List effect)
  | exited (code : Nat) (effs : List effect)
  | fatal (code : Nat) (effs : List effect)
  | blocked (effs : List effect)

/-- Prefix effects onto a builtin result. -/
def bi_result.prepend (e : List effect) : bi_result → bi_result
  | bi_result.ok st evs effs => bi_result.ok st evs (e ++ effs)
  | bi_result.exited c effs => bi_result.exited c (e ++ effs)
  | bi_result.fatal c effs => bi_result.fatal c (e ++ effs)
  | bi_result.blocked effs => bi_result.blocked (e ++ effs)

/-- The loop body of `exit_builtin`, iterating over the job ids that were
on `job_list` when the builtin started: force each job `FOREGROUND`, send
`SIGKILL` to its process group and reap it with `wait_for_job`; finally
`exit(0)`.  (The C code iterates the intrusive list directly; a job freed
by the reaper during an earlier iteration would leave a dangling iterator
there — the snapshot iteration skips ids whose slot has been emptied.) -/
def exit_builtin_go : List Nat → shell_state → List wait_result → bi_result
  | [], _, _ => bi_result.exited 0 []
  | jid :: rest, st, evs =>
      match st.jid2job jid with
      | none => exit_builtin_go rest st evs
      | some j =>
          let st1 := update_job st { j with status := job_status.FOREGROUND }
          match wait_for_job jid st1 evs with
          | wait_outcome.ok st2 effs2 r =>
              (exit_builtin_go rest st2 r).prepend (effect.sendsig j.pgid SIGKILL :: effs2)
          | wait_outcome.fatal c e => bi_result.fatal c (effect.sendsig j.pgid SIGKILL :: e)
          | wait_outcome.blocked e => bi_result.blocked (effect.sendsig j.pgid SIGKILL :: e)

/-- `exit_builtin` from cush.c: kill and reap every live job, then exit
with success status.  Never returns to its caller. -/
def exit_builtin (st : shell_state) (evs : List wait_result) : bi_result :=
  exit_builtin_go st.job_list st evs

/-- `jobs_builtin` from cush.c: one `print_job` line per live job, in
`job_list` order. -/
def jobs_builtin (st : shell_state) : List effect :=
  st.job_list.filterMap (fun jid => (st.jid2job jid).map (fun j => effect.msg (print_job_line j)))

/-- Digit-accumulation loop of `atoi`, stopping at the first non-digit. -/
def atoi_digits : List Char → Nat → Nat
  | [], acc => acc
  | c :: rest, acc => if c.isDigit then atoi_digits rest (acc * 10 + (c.toNat - 48)) else acc

/-- libc `atoi` as cush.c uses it on job-id arguments: optional leading
minus sign, then digits.  (Leading whitespace and `+` handling are not
exercised by any claim.) -/
def atoi (s : String) : Int :=
  match s.data with
  | '-' :: rest => - (atoi_digits rest 0 : Int)
  | l => (atoi_digits l 0 : Int)

/-- The `"%s %s: No such job\n"` message of the jid-taking builtins. -/
def no_such_job_msg (argv : List String) : effect :=
  effect.msg (argv.getD 0 "" ++ " " ++ argv.getD 1 "" ++ ": No such job\n")

/-- `kill_builtin` from cush.c.  Note the C code's `if (jid < 1)` branch
prints the message but does not return, so a non-positive jid falls
through to the (failing) lookup and the message is printed twice. -/
def kill_builtin (st : shell_state) (argv : List String) (evs : List wait_result) : bi_result :=
  let jid := atoi (argv.getD 1 "")
  let effs0 := if jid < 1 then [no_such_job_msg argv] else []
  match get_job_from_jid st jid with
  | some j =>
      let st1 := update_job st { j with status := job_status.FOREGROUND }
      match wait_for_job j.jid st1 evs with
      | wait_outcome.ok st2 effs2 r =>
          bi_result.ok (delete_job (list_remove st2 j.jid) j.jid) r
            (effs0 ++ effect.sendsig j.pgid SIGKILL :: effs2)
      | wait_outcome.fatal c e => bi_result.fatal c (effs0 ++ effect.sendsig j.pgid SIGKILL :: e)
      | wait_outcome.blocked e => bi_result.blocked (effs0 ++ effect.sendsig j.pgid SIGKILL :: e)
  | none => bi_result.ok st evs (effs0 ++ [no_such_job_msg argv])

/-- `bg_builtin` from cush.c: set the job `BACKGROUND`, continue its
process group and announce `[jid] pgid`. -/
def bg_builtin (st : shell_state) (argv : List String) : shell_state × List effect :=
  let jid := atoi (argv.getD 1 "")
  let effs0 := if jid < 1 then [no_such_job_msg argv] else []
  match get_job_from_jid st jid with
  | some j =>
      (update_job st { j with status := job_status.BACKGROUND },
       effs0 ++ [effect.sendsig j.pgid SIGCONT,
                 effect.msg ("[" ++ toString jid ++ "] " ++ toString j.pgid ++ "\n")])
  | none => (st, effs0 ++ [no_such_job_msg argv])

/-- `fg_builtin` from cush.c: set the job `FOREGROUND`, hand it the
terminal, continue it, echo its command line, wait for it, and remove it
if it terminated. -/
def fg_builtin (st : shell_state) (argv : List String) (evs : List wait_result) : bi_result :=
  let jid := atoi (argv.getD 1 "")
  let effs0 := if jid < 1 then [no_such_job_msg argv] else []
  match get_job_from_jid st jid with
  | some j =>
      let st1 := { update_job st { j with status := job_status.FOREGROUND }
                   with term_owner := j.pgid }
      let effs1 := effs0 ++ [effect.tgive j.pgid, effect.sendsig j.pgid SIGCONT,
                             effect.msg (print_cmdline j.pipe ++ "\n")]
      match wait_for_job j.jid st1 evs with
      | wait_outcome.ok st2 effs2 r =>
          match st2.jid2job j.jid with
          | some j2 =>
              if j2.status = job_status.TERMINATED then
                bi_result.ok (delete_job (list_remove st2 j.jid) j.jid) r (effs1 ++ effs2)
              else bi_result.ok st2 r (effs1 ++ effs2)
          | none => bi_result.ok st2 r (effs1 ++ effs2)
      | wait_outcome.fatal c e => bi_result.fatal c (effs1 ++ e)
      | wait_outcome.blocked e => bi_result.blocked (effs1 ++ e)
  | none => bi_result.ok st evs (effs0 ++ [no_such_job_msg argv])

/-- `stop_builtin` from cush.c: send `SIGSTOP` to the job's process group;
the status transition is observed later by the reaper. -/
def stop_builtin (st : shell_state) (argv : List String) : shell_state × List effect :=
  let jid := atoi (argv.getD 1 "")
  let effs0 := if jid < 1 then [no_such_job_msg argv] else []
  match get_job_from_jid st jid with
  | some j => (st, effs0 ++ [effect.sendsig j.pgid SIGSTOP])
  | none => (st, effs0 ++ [no_such_job_msg argv])

/-- Result of one `posix_spawnp` call: the new pid, or a nonzero error
code (the oracle convention is that `fail rc` carries `rc ≠ 0`; `rc = 0`
is success and is represented by `ok`). -/
inductive spawn_result where
  | ok (pid : Nat)
  | fail (rc : Nat)
deriving DecidableEq, Repr

/-- Oracle for the OS calls of the spawner: `pipe_ok n` is whether the
`n`-th `pipe2` call succeeds, `spawn_res n` the result of the `n`-th
`posix_spawnp` call; the `_ix` fields count the calls made so far. -/
structure spawn_env where
  pipe_ok : Nat → Bool
  spawn_res : Nat → spawn_result
  pipe_ix : Nat
  spawn_ix : Nat

/-- Result of running the commands of one pipeline: on `ok`, the current
job (if one was created), the pipeline's process group, and the advanced
oracles. -/
inductive cmds_result where
  | ok (st : shell_state) (jobOpt : Option Nat) (pgrp : Nat) (env : spawn_env)
       (evs : List wait_result) (effs : List effect)
  | exited (code : Nat) (effs : List effect)
  | fatal (code : Nat) (effs : List effect)
  | blocked (effs : List effect)

/-- Prefix effects onto a command-loop result. -/
def cmds_result.prepend (e : List effect) : cmds_result → cmds_result
  | cmds_result.ok st jo pg env evs effs => cmds_result.ok st jo pg env evs (e ++ effs)
  | cmds_result.exited c effs => cmds_result.exited c (e ++ effs)
  | cmds_result.fatal c effs => cmds_result.fatal c (e ++ effs)
  | cmds_result.blocked effs => cmds_result.blocked (e ++ effs)

/-- Lift a builtin result that cannot be `ok` at the command-loop level
(the `exit` builtin) or whose `ok` resumes the loop (handled at the call
site) into a `cmds_result`. -/
def bi_result.to_cmds (jobOpt : Option Nat) (pgrp : Nat) (env : spawn_env) :
    bi_result → cmds_result
  | bi_result.ok st evs effs => cmds_result.ok st jobOpt pgrp env evs effs
  | bi_result.exited c effs => cmds_result.exited c effs
  | bi_result.fatal c effs => cmds_result.fatal c effs
  | bi_result.blocked effs => cmds_result.blocked effs

/-- The per-command loop of `shell_loop` (cush.c lines 923-1036): create a
pipe for every non-last command (a failure runs `perror` and then
`exit_builtin`, terminating the whole shell), dispatch builtins by
`argv[0]`, and otherwise `posix_spawnp` the program: `ENOENT` prints the
"not found" message and continues; any other spawn error prints a
diagnostic and runs `exit_builtin`; on success the first spawned process
fixes the process group, the job is created on the pipeline's first
successful spawn, and the process is appended to the job's procs array.
(Descriptor bookkeeping — `setup_file_actions`, `close_pipe`, the
`prev_pipe`/`new_pipe` shuffle — has no observable effect modelled here.) -/
def run_commands (pl : ast_pipeline) :
    List ast_command → shell_state → Option Nat → Nat → spawn_env → List wait_result →
    cmds_result
  | [], st, jobOpt, pgrp, env, evs => cmds_result.ok st jobOpt pgrp env evs []
  | cmd :: rest, st, jobOpt, pgrp, env, evs =>
      let env1 := if rest.isEmpty then env else { env with pipe_ix := env.pipe_ix + 1 }
      if rest.isEmpty = false ∧ env.pipe_ok env.pipe_ix = false then
        ((exit_builtin st evs).prepend [effect.err "pipe2 error\n"]).to_cmds jobOpt pgrp env1
      else
        let argv0 := cmd.argv.getD 0 ""
        if argv0 = "exit" then
          (exit_builtin st evs).to_cmds jobOpt pgrp env1
        else if argv0 = "jobs" then
          (run_commands pl rest st jobOpt pgrp env1 evs).prepend (jobs_builtin st)
        else if argv0 = "kill" then
          match kill_builtin st cmd.argv evs with
          | bi_result.ok st1 evs1 effs =>
              (run_commands pl rest st1 jobOpt pgrp env1 evs1).prepend effs
          | r => r.to_cmds jobOpt pgrp env1
        else if argv0 = "bg" then
          let r := bg_builtin st cmd.argv
          (run_commands pl rest r.1 jobOpt pgrp env1 evs).prepend r.2
        else if argv0 = "fg" then
          match fg_builtin st cmd.argv evs with
          | bi_result.ok st1 evs1 effs =>
              (run_commands pl rest st1 jobOpt pgrp env1 evs1).prepend effs
          | r => r.to_cmds jobOpt pgrp env1
        else if argv0 = "stop" then
          let r := stop_builtin st cmd.argv
          (run_commands pl rest r.1 jobOpt pgrp env1 evs).prepend r.2
        else if argv0 = "history" then
          -- history_builtin reads readline's global history; external state,
          -- no job-registry or terminal effect.
          run_commands pl rest st jobOpt pgrp env1 evs
        else if argv0 = "cd" then
          -- cd_builtin only calls chdir/perror; external state.
          run_commands pl rest st jobOpt pgrp env1 evs
        else
          let env2 := { env1 with spawn_ix := env1.spawn_ix + 1 }
          match env1.spawn_res env1.spawn_ix with
          | spawn_result.fail rc =>
              if rc = ENOENT then
                (run_commands pl rest st jobOpt pgrp env2 evs).prepend
                  [effect.msg (argv0 ++ ": No such file or directory\n")]
              else
                ((exit_builtin st evs).prepend
                  [effect.err ("posix_spawnp error: " ++ toString rc ++ "\n")]).to_cmds
                  jobOpt pgrp env2
          | spawn_result.ok pid =>
              let pgrp1 := if pgrp = 0 then pid else pgrp
              match jobOpt with
              | none =>
                  match add_job st pl with
                  | none => cmds_result.fatal 134 [effect.err "Maximum number of jobs exceeded\n"]
                  | some (st1, j0) =>
                      let j2 : job :=
                        { j0 with pgid := pgrp1,
                                  status := if pl.bg_job then job_status.BACKGROUND
                                            else job_status.FOREGROUND,
                                  procs := [⟨pid, proc_status.PSTAT_RUNNING, cmd⟩],
                                  num_processes_alive := 1 }
                      (run_commands pl rest (update_job st1 j2) (some j0.jid) pgrp1 env2 evs).prepend
                        [effect.tsave j0.jid]
              | some tjid =>
                  match st.jid2job tjid with
                  | none =>
                      -- In C this writes through a pointer to a job that the
                      -- reaper has already freed (undefined behaviour); the
                      -- model drops the write.  No claim depends on it.
                      run_commands pl rest st jobOpt pgrp1 env2 evs
                  | some j =>
                      let j2 := { j with
                                  procs := j.procs ++ [⟨pid, proc_status.PSTAT_RUNNING, cmd⟩],
                                  num_processes_alive := j.num_processes_alive + 1 }
                      run_commands pl rest (update_job st j2) jobOpt pgrp1 env2 evs

/-- Result of one pipeline (or of a whole command line). -/
inductive pl_result where
  | ok (st : shell_state) (env : spawn_env) (evs : List wait_result) (effs : List effect)
  | exited (code : Nat) (effs : List effect)
  | fatal (code : Nat) (effs : List effect)
  | blocked (effs : List effect)

/-- Prefix effects onto a pipeline result. -/
def pl_result.prepend (e : List effect) : pl_result → pl_result
  | pl_result.ok st env evs effs => pl_result.ok st env evs (e ++ effs)
  | pl_result.exited c effs => pl_result.exited c (e ++ effs)
  | pl_result.fatal c effs => pl_result.fatal c (e ++ effs)
  | pl_result.blocked effs => pl_result.blocked (e ++ effs)

/-- The tail of `run_pipeline` after the command loop (cush.c lines
1038-1053): either wait for a foreground job (handing it the terminal
first and deleting it if it terminated) or announce a background job. -/
def finish_pipeline (pl : ast_pipeline) (st1 : shell_state) :
    Option Nat → Nat → spawn_env → List wait_result → List effect → pl_result
  | none, _, env1, evs1, effs => pl_result.ok st1 env1 evs1 effs
  | some jid, pgrp, env1, evs1, effs =>
      if pl.bg_job then
        match st1.jid2job jid with
        | some j =>
            pl_result.ok st1 env1 evs1
              (effs ++ [effect.msg ("[" ++ toString j.jid ++ "] " ++ toString j.pgid ++ "\n")])
        | none => pl_result.ok st1 env1 evs1 effs
      else
        let st2 := { st1 with term_owner := pgrp }
        match wait_for_job jid st2 evs1 with
        | wait_outcome.ok st3 effs3 evs3 =>
            match st3.jid2job jid with
            | some j3 =>
                if j3.status = job_status.TERMINATED then
                  pl_result.ok (delete_job (list_remove st3 jid) jid) env1 evs3
                    (effs ++ effect.tgive pgrp :: effs3)
                else pl_result.ok st3 env1 evs3 (effs ++ effect.tgive pgrp :: effs3)
            | none => pl_result.ok st3 env1 evs3 (effs ++ effect.tgive pgrp :: effs3)
        | wait_outcome.fatal c e => pl_result.fatal c (effs ++ effect.tgive pgrp :: e)
        | wait_outcome.blocked e => pl_result.blocked (effs ++ effect.tgive pgrp :: e)

/-- One pipeline of `shell_loop`: the command loop followed by the
foreground wait / background announcement. -/
def run_pipeline (st : shell_state) (pl : ast_pipeline) (env : spawn_env)
    (evs : List wait_result) : pl_result :=
  match run_commands pl pl.commands st none 0 env evs with
  | cmds_result.ok st1 jobOpt pgrp env1 evs1 effs =>
      finish_pipeline pl st1 jobOpt pgrp env1 evs1 effs
  | cmds_result.exited c e => pl_result.exited c e
  | cmds_result.fatal c e => pl_result.fatal c e
  | cmds_result.blocked e => pl_result.blocked e

/-- The per-pipeline loop of one `shell_loop` iteration. -/
def run_pipelines : List ast_pipeline → shell_state → spawn_env → List wait_result → pl_result
  | [], st, env, evs => pl_result.ok st env evs []
  | pl :: rest, st, env, evs =>
      match run_pipeline st pl env evs with
      | pl_result.ok st1 env1 evs1 effs => (run_pipelines rest st1 env1 evs1).prepend effs
      | r => r

/-- One parsed line of input: end-of-file at the prompt, or the pipelines
of a parsed command line (parsing itself is the external collaborator). -/
inductive shell_input where
  | eof
  | cmdline (pipes : List ast_pipeline)

/-- One iteration of `shell_loop` from cush.c: EOF breaks out of the loop
and `main` returns 0 (modelled as exiting with success status, touching no
job); an empty command line is a no-op; otherwise SIGCHLD is blocked, every
pipeline is processed, SIGCHLD is unblocked and the terminal is reclaimed
for the shell. -/
def shell_iteration (st : shell_state) (inp : shell_input) (env : spawn_env)
    (evs : List wait_result) : pl_result :=
  match inp with
  | shell_input.eof => pl_result.exited 0 []
  | shell_input.cmdline pipes =>
      if pipes.isEmpty then pl_result.ok st env evs []
      else
        match run_pipelines pipes st env evs with
        | pl_result.ok st1 env1 evs1 effs =>
            pl_result.ok { st1 with term_owner := st1.shell_pgrp } env1 evs1
              (effs ++ [effect.tgiveback])
        | r => r

/-- A top-level operation between two observable points: one (non-EOF)
command line processed by `shell_loop`, or one delivery of the
asynchronous SIGCHLD handler while the shell sits at the prompt. -/
inductive shell_op where
  | line (pipes : List ast_pipeline) (env : spawn_env) (evs : List wait_result)
  | async (evs : List wait_result)

/-- Result of a top-level operation (the oracle remainders are dropped:
only the next observable state and the effects matter at this level). -/
inductive op_result where
  | ok (st : shell_state) (effs : List effect)
  | exited (code : Nat) (effs : List effect)
  | fatal (code : Nat) (effs : List effect)
  | blocked (effs : List effect)

/-- Run one top-level operation from an observable point. -/
def op_step (st : shell_state) : shell_op → op_result
  | shell_op.line pipes env evs =>
      match shell_iteration st (shell_input.cmdline pipes) env evs with
      | pl_result.ok st1 _ _ effs => op_result.ok st1 effs
      | pl_result.exited c e => op_result.exited c e
      | pl_result.fatal c e => op_result.fatal c e
      | pl_result.blocked e => op_result.blocked e
  | shell_op.async evs =>
      match sigchld_handler st evs with
      | reap_result.ok st1 effs => op_result.ok st1 effs
      | reap_result.fatal c e => op_result.fatal c e

/-- The state after `main`'s initialization: empty registry, the shell's
own process group owning the terminal. -/
def initial_state (pgrp : Nat) : shell_state :=
  { jid2job := fun _ => none, job_list := [], term_owner := pgrp, shell_pgrp := pgrp }

/-- The state reached by a successful top-level operation, if any. -/
def op_result.state? : op_result → Option shell_state
  | op_result.ok st _ => some st
  | _ => none

/-- The invariant asserted by claim C3 at one observable state: at most one
registered job has `FOREGROUND` status, and while one does, the terminal's
owning process group equals that job's process group. -/
def fg_terminal_inv (st : shell_state) : Prop :=
  (∀ jid1 j1 jid2 j2, st.jid2job jid1 = some j1 → st.jid2job jid2 = some j2 →
     j1.status = job_status.FOREGROUND → j2.status = job_status.FOREGROUND → jid1 = jid2) ∧
  (∀ jid j, st.jid2job jid = some j → j.status = job_status.FOREGROUND →
     st.term_owner = j.pgid)

/-- Registry well-formedness asserted by claim C7: every registered job sits
in the `jid2job` slot matching its own id, and its live-process count equals
the length of its procs sequence. -/
def jobs_wf (st : shell_state) : Prop :=
  ∀ jid j, st.jid2job jid = some j →
    j.jid = jid ∧ j.num_processes_alive = j.procs.length

/-- The pids of a job's live processes (the first `num_processes_alive`
entries of its procs array, i.e. what `find_pid` scans). -/
def pids_of (j : job) : List Nat :=
  (j.procs.take j.num_processes_alive).map process_t.pid

/-- No pid is live in two distinct registered jobs. -/
def pids_disjoint (st : shell_state) : Prop :=
  ∀ jid1 j1 jid2 j2, st.jid2job jid1 = some j1 → st.jid2job jid2 = some j2 →
    jid1 ≠ jid2 → ∀ p, p ∈ pids_of j1 → p ∉ pids_of j2

/-- Inductive invariant holding at every observable point between
operations (under the restriction of the amended claim C3): every
registered job is self-consistent, has at least one live process, and is
neither `FOREGROUND` nor `TERMINATED`. -/
def boundary_inv (st : shell_state) : Prop :=
  ∀ jid j, st.jid2job jid = some j →
    j.jid = jid ∧ j.num_processes_alive = j.procs.length ∧
    0 < j.num_processes_alive ∧
    j.status ≠ job_status.FOREGROUND ∧ j.status ≠ job_status.TERMINATED

/-- Mid-operation weakening of `boundary_inv`: the distinguished job `t`
(the one currently spawned or waited on) is exempt from the liveness and
status constraints; it only promises to be `TERMINATED` once its live
count reaches zero. -/
def mid_inv (st : shell_state) (t : Nat) : Prop :=
  ∀ jid j, st.jid2job jid = some j →
    j.jid = jid ∧ j.num_processes_alive = j.procs.length ∧
    (jid ≠ t → 0 < j.num_processes_alive ∧
       j.status ≠ job_status.FOREGROUND ∧ j.status ≠ job_status.TERMINATED) ∧
    (jid = t → j.num_processes_alive = 0 → j.status = job_status.TERMINATED)

/-- A command whose first word is none of the eight builtin names, so the
shell will try to spawn it. -/
def is_external (c : ast_command) : Prop :=
  c.argv.getD 0 "" ≠ "exit" ∧ c.argv.getD 0 "" ≠ "jobs" ∧ c.argv.getD 0 "" ≠ "kill" ∧
  c.argv.getD 0 "" ≠ "bg" ∧ c.argv.getD 0 "" ≠ "fg" ∧ c.argv.getD 0 "" ≠ "stop" ∧
  c.argv.getD 0 "" ≠ "history" ∧ c.argv.getD 0 "" ≠ "cd"

/-- The job-control builtins that mutate job statuses and may therefore
not appear inside a multi-command pipeline under the amended claim C3. -/
def is_jc_builtin (c : ast_command) : Bool :=
  c.argv.getD 0 "" = "kill" ∨ c.argv.getD 0 "" = "bg" ∨ c.argv.getD 0 "" = "fg"

/-- Mid-spawn invariant for the command loop of one pipeline: every
registered job other than the pipeline's own (once created) obeys the
boundary constraints; the pipeline's own job is live and carries exactly
the status its background flag dictates. -/
def spawn_mid (bg : Bool) (jo : Option Nat) (st : shell_state) : Prop :=
  ∀ jid j, st.jid2job jid = some j →
    j.jid = jid ∧ j.num_processes_alive = j.procs.length ∧
    (jo ≠ some jid → 0 < j.num_processes_alive ∧
       j.status ≠ job_status.FOREGROUND ∧ j.status ≠ job_status.TERMINATED) ∧
    (jo = some jid → 0 < j.num_processes_alive ∧
       j.status = (if bg then job_status.BACKGROUND else job_status.FOREGROUND))

/-- A pipeline is restricted when the status-mutating job-control builtins
only occur as the sole command of the pipeline. -/
def restricted_pl (pl : ast_pipeline) : Prop :=
  pl.commands.length = 1 ∨ ∀ c ∈ pl.commands, is_jc_builtin c = false

/-- A top-level operation is restricted when each of its pipelines is. -/
def op_restricted : shell_op → Prop
  | shell_op.line pipes _ _ => ∀ pl ∈ pipes, restricted_pl pl
  | shell_op.async _ => True

/-- The `waitpid` observations produced when a job's live processes are all
killed by `SIGKILL`, in procs order. -/
def job_kill_events (j : job) : List wait_result :=
  j.procs.map (fun p => wait_result.child p.pid (wstatus.signaled SIGKILL))

/-- The full `waitpid` trace of `exit_builtin` killing every registered
job in `job_list` order. -/
def registry_kill_events (st : shell_state) : List wait_result :=
  st.job_list.flatMap (fun jid =>
    match st.jid2job jid with
    | some j => job_kill_events j
    | none => [])

/-- The printed lines accompanying the reaping of signal-killed procs. -/
def kill_msgs (j : job) : List effect :=
  j.procs.map (fun _ => effect.msg (strsignal SIGKILL ++ "\n"))

/-- The registry entry a foreground job ends in after the Status Reaper
has consumed all of its processes: no live processes, `TERMINATED`. -/
def killed_job (j : job) : job :=
  { j with procs := [], num_processes_alive := 0, status := job_status.TERMINATED }

/-- A job with its procs array replaced and the live count kept in sync
(the shape the Status Reaper leaves a partially reaped job in). -/
def with_procs (j : job) (ps : List process_t) : job :=
  { j with procs := ps, num_processes_alive := ps.length }

/- Concrete scenario data used by counterexamples and witnesses. -/

/-- A one-command pipeline `sleep 1000 &`. -/
def sleep_bg_pl : ast_pipeline :=
  ⟨[⟨["sleep", "1000"], false⟩], none, none, false, true⟩

/-- An oracle whose every spawn succeeds with the given pid and whose
pipes always succeed. -/
def all_ok_env (pid : Nat) : spawn_env :=
  ⟨fun _ => true, fun _ => spawn_result.ok pid, 0, 0⟩

/-- The state after running `sleep 1000 &` (pid 50) from the initial
state: one background job, jid 1, pgid 50. -/
def one_bg_job_state : Option shell_state :=
  (op_step (initial_state 1) (shell_op.line [sleep_bg_pl] (all_ok_env 50) [])).state?

/-- The foreground pipeline `a | kill 1 | bg 2` of the claim C3
counterexample. -/
def c3_mixed_pl : ast_pipeline :=
  ⟨[⟨["a"], false⟩, ⟨["kill", "1"], false⟩, ⟨["bg", "2"], false⟩], none, none, false, false⟩

/-- Second step of the claim C3 counterexample: run `a | kill 1 | bg 2`
(the spawned `a` is pid 60; while `kill 1` reaps job 1, it also reaps the
exited `a`, terminating the partially-spawned job 2, which `bg 2` then
turns back into a zero-process `BACKGROUND` job). -/
def c3_state_b : Option shell_state :=
  one_bg_job_state.bind (fun s =>
    (op_step s (shell_op.line [c3_mixed_pl] (all_ok_env 60)
      [wait_result.child 60 (wstatus.exited 0),
       wait_result.child 50 (wstatus.signaled 9)])).state?)

/-- Third step of the claim C3 counterexample: `fg 2` marks the
zero-process job 2 `FOREGROUND`; the wait loop exits immediately and the
job survives to the next prompt in `FOREGROUND` status while the terminal
is handed back to the shell. -/
def c3_state_c : Option shell_state :=
  c3_state_b.bind (fun s =>
    (op_step s (shell_op.line [⟨[⟨["fg", "2"], false⟩], none, none, false, false⟩]
      (all_ok_env 0) [])).state?)

/-- A two-command pipeline of unknown programs, for claim C8. -/
def c8_pl : ast_pipeline :=
  ⟨[⟨["nope1"], false⟩, ⟨["nope2"], false⟩], none, none, false, false⟩

/-- An oracle whose every spawn fails with `ENOENT`. -/
def enoent_env : spawn_env :=
  ⟨fun _ => true, fun _ => spawn_result.fail ENOENT, 0, 0⟩

/-- An oracle whose first pipe creation fails, for claim C1. -/
def pipe_fail_env : spawn_env :=
  ⟨fun _ => false, fun _ => spawn_result.fail 1, 0, 0⟩

/-- A placeholder job used to populate a full registry. -/
def dummy_job : job :=
  ⟨⟨[], none, none, false, false⟩, 1, job_status.BACKGROUND, 1,
   7, [⟨7, proc_status.PSTAT_RUNNING, ⟨[], false⟩⟩]⟩

/-- A registry in which every job id `1 .. MAXJOBS-1` is taken. -/
def full_state : shell_state :=
  { jid2job := fun i => if 0 < i ∧ i < MAXJOBS then some dummy_job else none,
    job_list := [], term_owner := 1, shell_pgrp := 1 }

/-- A concrete foreground job (jid 1, pgid 42, one running process with
pid 42), used to witness the reaper theorems. -/
def fg_job : job :=
  ⟨⟨[⟨["prog"], false⟩], none, none, false, false⟩, 1,
   job_status.FOREGROUND, 1, 42,
   [⟨42, proc_status.PSTAT_RUNNING, ⟨["prog"], false⟩⟩]⟩

/-- A state holding a single foreground job with one running process, used
to witness the reaper theorems. -/
def fg_job_state : shell_state :=
  { jid2job := fun i => if i = 1 then some fg_job else none,
    job_list := [1], term_owner := 42, shell_pgrp := 1 }

/-! ## Theorems -/

/-! Unfolding equations for the recursive definitions (definitional). -/

theorem shell_iteration_eof (st : shell_state) (env : spawn_env) (evs : List wait_result) :
    shell_iteration st shell_input.eof env evs = pl_result.exited 0 [] := rfl

theorem shell_iteration_cmdline (st : shell_state) (pipes : List ast_pipeline)
    (env : spawn_env) (evs : List wait_result) :
    shell_iteration st (shell_input.cmdline pipes) env evs =
      (if pipes.isEmpty then pl_result.ok st env evs []
       else
         match run_pipelines pipes st env evs with
         | pl_result.ok st1 env1 evs1 effs =>
             pl_result.ok { st1 with term_owner := st1.shell_pgrp } env1 evs1
               (effs ++ [effect.tgiveback])
         | r => r) := rfl

theorem finish_pipeline_none (pl : ast_pipeline) (st1 : shell_state) (pg : Nat)
    (env1 : spawn_env) (evs1 : List wait_result) (effs : List effect) :
    finish_pipeline pl st1 none pg env1 evs1 effs = pl_result.ok st1 env1 evs1 effs := rfl

theorem finish_pipeline_some (pl : ast_pipeline) (st1 : shell_state) (jid : Nat) (pgrp : Nat)
    (env1 : spawn_env) (evs1 : List wait_result) (effs : List effect) :
    finish_pipeline pl st1 (some jid) pgrp env1 evs1 effs =
      if pl.bg_job then
        match st1.jid2job jid with
        | some j =>
            pl_result.ok st1 env1 evs1
              (effs ++ [effect.msg ("[" ++ toString j.jid ++ "] " ++ toString j.pgid ++ "\n")])
        | none => pl_result.ok st1 env1 evs1 effs
      else
        match wait_for_job jid { st1 with term_owner := pgrp } evs1 with
        | wait_outcome.ok st3 effs3 evs3 =>
            match st3.jid2job jid with
            | some j3 =>
                if j3.status = job_status.TERMINATED then
                  pl_result.ok (delete_job (list_remove st3 jid) jid) env1 evs3
                    (effs ++ effect.tgive pgrp :: effs3)
                else pl_result.ok st3 env1 evs3 (effs ++ effect.tgive pgrp :: effs3)
            | none => pl_result.ok st3 env1 evs3 (effs ++ effect.tgive pgrp :: effs3)
        | wait_outcome.fatal c e => pl_result.fatal c (effs ++ effect.tgive pgrp :: e)
        | wait_outcome.blocked e => pl_result.blocked (effs ++ effect.tgive pgrp :: e) := rfl

theorem wait_for_job_nil (jid : Nat) (st : shell_state) :
    wait_for_job jid st [] =
      match st.jid2job jid with
      | none => wait_outcome.ok st [] []
      | some j =>
          if j.status = job_status.FOREGROUND ∧ 0 < j.num_processes_alive then
            wait_outcome.blocked []
          else wait_outcome.ok st [] [] := rfl

theorem wait_for_job_cons (jid : Nat) (st : shell_state) (ev : wait_result)
    (rest : List wait_result) :
    wait_for_job jid st (ev :: rest) =
      match st.jid2job jid with
      | none => wait_outcome.ok st [] (ev :: rest)
      | some j =>
          if j.status = job_status.FOREGROUND ∧ 0 < j.num_processes_alive then
            match ev with
            | wait_result.nochild => wait_outcome.fatal 1 [effect.err waitpid_fail_msg]
            | wait_result.child pid ws =>
                match handle_child_status st pid ws with
                | reap_result.ok st1 effs1 =>
                    match wait_for_job jid st1 rest with
                    | wait_outcome.ok st2 effs2 r => wait_outcome.ok st2 (effs1 ++ effs2) r
                    | wait_outcome.fatal c effs2 => wait_outcome.fatal c (effs1 ++ effs2)
                    | wait_outcome.blocked effs2 => wait_outcome.blocked (effs1 ++ effs2)
                | reap_result.fatal c effs1 => wait_outcome.fatal c effs1
          else wait_outcome.ok st [] (ev :: rest) := rfl

/-- Claim C9: the registry lookup returns a job only when `0 < jid < 65536`
and the id is currently mapped; every jid outside that range (zero,
negative, or at or above `2^16`) yields `none`, so the job-id namespace is
exactly 1 to 65535. -/
theorem get_job_lookup_range (st : shell_state) (jid : Int) :
    (∀ j, get_job_from_jid st jid = some j →
       0 < jid ∧ jid < 65536 ∧ st.jid2job jid.toNat = some j) ∧
    (¬(0 < jid ∧ jid < 65536) → get_job_from_jid st jid = none) ∧
    (st.jid2job jid.toNat = none → get_job_from_jid st jid = none) := by
  have hM : (MAXJOBS : Int) = 65536 := by norm_num [MAXJOBS]
  refine ⟨?_, ?_, ?_⟩
  · intro j h
    unfold get_job_from_jid at h
    split at h
    next hc => exact ⟨hc.1, by rw [hM] at hc; exact hc.2, h⟩
    next => cases h
  · intro h
    unfold get_job_from_jid
    rw [if_neg]
    rw [hM]
    exact h
  · intro h
    unfold get_job_from_jid
    split
    · exact h
    · rfl

/-- Witness for claim C9: jid 70000 lies above the bound, so lookup
returns nothing. -/
theorem get_job_lookup_range_witness :
    get_job_from_jid (initial_state 1) 70000 = none :=
  (get_job_lookup_range (initial_state 1) 70000).2.1 (by decide)

/-- Claim C4: a tty-access stop (`SIGTTIN`/`SIGTTOU`) observed for a
process of a `FOREGROUND` job makes the reaper restore terminal ownership
to the job and send its process group `SIGCONT`, with no other change:
the registry (hence the process's recorded `Running` state and the job's
status and procs sequence) is untouched and nothing is printed. -/
theorem fg_tty_stop_resumes (st : shell_state) (jid i sig : Nat) (j : job)
    (hj : st.jid2job jid = some j) (hfg : j.status = job_status.FOREGROUND)
    (hsig : sig = SIGTTIN ∨ sig = SIGTTOU) :
    handle_stopped_child st jid i (wstatus.stopped sig) =
      ({ st with term_owner := j.pgid },
       [effect.tgive j.pgid, effect.sendsig j.pgid SIGCONT]) ∧
    (handle_stopped_child st jid i (wstatus.stopped sig)).1.jid2job = st.jid2job ∧
    (handle_stopped_child st jid i (wstatus.stopped sig)).1.job_list = st.job_list ∧
    (∀ s, effect.msg s ∉ (handle_stopped_child st jid i (wstatus.stopped sig)).2) := by
  have hcond : (WSTOPSIG (wstatus.stopped sig) = SIGTTOU ∨
      WSTOPSIG (wstatus.stopped sig) = SIGTTIN) ∧ j.status = job_status.FOREGROUND := by
    refine ⟨?_, hfg⟩
    simp only [WSTOPSIG]
    rcases hsig with h | h
    · exact Or.inr h
    · exact Or.inl h
  have heq : handle_stopped_child st jid i (wstatus.stopped sig) =
      ({ st with term_owner := j.pgid },
       [effect.tgive j.pgid, effect.sendsig j.pgid SIGCONT]) := by
    unfold handle_stopped_child
    simp only [hj]
    rw [if_pos hcond]
  refine ⟨heq, by rw [heq], by rw [heq], ?_⟩
  intro s hmem
  rw [heq] at hmem
  simp at hmem

/-- Witness for claim C4 on a concrete foreground job. -/
theorem fg_tty_stop_resumes_witness :
    handle_stopped_child fg_job_state 1 0 (wstatus.stopped SIGTTIN) =
      ({ fg_job_state with term_owner := 42 },
       [effect.tgive 42, effect.sendsig 42 SIGCONT]) :=
  (fg_tty_stop_resumes fg_job_state 1 0 SIGTTIN _ rfl rfl (Or.inl rfl)).1

/-- Claim C10: the asynchronous SIGCHLD drain loop processes each reapable
child in turn and stops silently (state unchanged, no effect, no error)
the moment `waitpid` reports no reapable child, whereas the synchronous
`wait_for_job` loop turns the same `waitpid` failure into a fatal
internal-consistency error. -/
theorem async_drain_vs_sync_fatal :
    (∀ st rest, sigchld_handler st (wait_result.nochild :: rest) = reap_result.ok st []) ∧
    (∀ st pid ws st1 e1 st2 e2 rest,
       handle_child_status st pid ws = reap_result.ok st1 e1 →
       sigchld_handler st1 rest = reap_result.ok st2 e2 →
       sigchld_handler st (wait_result.child pid ws :: rest) =
         reap_result.ok st2 (e1 ++ e2)) ∧
    (∀ st jid j evs, st.jid2job jid = some j → j.status = job_status.FOREGROUND →
       0 < j.num_processes_alive →
       wait_for_job jid st (wait_result.nochild :: evs) =
         wait_outcome.fatal 1 [effect.err waitpid_fail_msg]) := by
  refine ⟨fun st rest => rfl, ?_, ?_⟩
  · intro st pid ws st1 e1 st2 e2 rest h1 h2
    simp only [sigchld_handler, h1, h2]
  · intro st jid j evs hj hfg hpos
    rw [wait_for_job_cons]
    simp only [hj]
    rw [if_pos ⟨hfg, hpos⟩]

/-- Witness for claim C10 on a concrete foreground job: the same spurious
`waitpid` failure that the async handler ignores is fatal in
`wait_for_job`. -/
theorem async_drain_vs_sync_fatal_witness :
    wait_for_job 1 fg_job_state [wait_result.nochild] =
      wait_outcome.fatal 1 [effect.err waitpid_fail_msg] :=
  async_drain_vs_sync_fatal.2.2 fg_job_state 1 _ [] rfl rfl (by decide)

/-- Claim C1 (code bug): a pipe-creation failure while spawning `a | b`
does not abort just that pipeline — the code calls `exit_builtin`, which
kills every job and terminates the entire shell with status 0. -/
theorem pipe_failure_exits_whole_shell :
    op_step (initial_state 1) (shell_op.line [c8_pl] pipe_fail_env []) =
      op_result.exited 0 [effect.err "pipe2 error\n"] ∧
    shell_iteration (initial_state 1) (shell_input.cmdline [c8_pl]) pipe_fail_env [] =
      pl_result.exited 0 [effect.err "pipe2 error\n"] := ⟨rfl, rfl⟩

/-- Claim C5 counterexample: after `sleep 1000 &` there is one live job,
yet the EOF path terminates the shell with success status and an empty
effect list — no `SIGKILL` is sent and nothing is reaped, contradicting
the claim's EOF half. -/
theorem eof_ignores_live_jobs :
    (one_bg_job_state.bind (fun s => s.jid2job 1)).map
        (fun j => (j.status, j.num_processes_alive, j.pgid)) =
      some (job_status.BACKGROUND, 1, 50) ∧
    one_bg_job_state.map
        (fun s => shell_iteration s shell_input.eof (all_ok_env 50) []) =
      some (pl_result.exited 0 []) := ⟨rfl, rfl⟩

/-- Claim C3 counterexample: the reachable three-step chain
`sleep 1000 &` ; `a | kill 1 | bg 2` ; `fg 2` ends at an observable prompt
boundary where job 2 has `FOREGROUND` status and process group 60 while
the terminal is owned by the shell (group 1), falsifying the claimed
invariant. -/
theorem fg_invariant_violated_at_prompt :
    (c3_state_c.bind (fun s => s.jid2job 2)).map (fun j => (j.status, j.pgid)) =
      some (job_status.FOREGROUND, 60) ∧
    c3_state_c.map shell_state.term_owner = some 1 ∧
    ∀ s, c3_state_c = some s → ¬ fg_terminal_inv s := by
  refine ⟨rfl, rfl, ?_⟩
  intro s hs hinv
  have h1 : (c3_state_c.bind (fun t => t.jid2job 2)).map (fun j => (j.status, j.pgid)) =
      some (job_status.FOREGROUND, 60) := rfl
  have h2 : c3_state_c.map shell_state.term_owner = some 1 := rfl
  rw [hs] at h1 h2
  rw [Option.some_bind] at h1
  rw [Option.map_some'] at h2
  cases hjj : s.jid2job 2 with
  | none => rw [hjj] at h1; cases h1
  | some j =>
      rw [hjj, Option.map_some'] at h1
      have hj1 := Option.some.inj h1
      have hst : j.status = job_status.FOREGROUND := congrArg Prod.fst hj1
      have hpg : j.pgid = 60 := congrArg Prod.snd hj1
      have hown := hinv.2 2 j hjj hst
      have hto : s.term_owner = 1 := Option.some.inj h2
      rw [hto, hpg] at hown
      exact absurd hown (by decide)

/-- Claim C2: when the reaper observes the termination of the last live
process of a job: a `FOREGROUND` job is marked `TERMINATED` and left in
the registry (its `job_list` entry untouched), with the shell's terminal
mode re-sampled exactly when that last process exited normally with
status 0; a non-`FOREGROUND` job is removed from both registry structures
immediately. -/
theorem last_process_termination (st : shell_state) (jid i : Nat) (status : wstatus)
    (j : job) (hj : st.jid2job jid = some j) (hjid : j.jid = jid)
    (hlast : j.num_processes_alive = 1) (hnd : st.job_list.Nodup) :
    (j.status = job_status.FOREGROUND →
       (handle_terminated_child st jid i status).1.jid2job jid =
         some { j with procs := j.procs.eraseIdx i, num_processes_alive := 0,
                       status := job_status.TERMINATED } ∧
       (handle_terminated_child st jid i status).1.job_list = st.job_list ∧
       (effect.tsample ∈ (handle_terminated_child st jid i status).2 ↔
          WIFEXITED status = true ∧ WEXITSTATUS status = 0)) ∧
    (j.status ≠ job_status.FOREGROUND →
       (handle_terminated_child st jid i status).1.jid2job jid = none ∧
       jid ∉ (handle_terminated_child st jid i status).1.job_list) := by
  constructor
  · intro hfg
    have heq : handle_terminated_child st jid i status =
        (update_job st
           { j with
               procs := j.procs.eraseIdx i,
               num_processes_alive := 0,
               status := job_status.TERMINATED },
         (match status with
          | wstatus.signaled sig => [effect.msg (strsignal sig ++ "\n")]
          | _ => []) ++
         (if WIFEXITED status = true ∧ WEXITSTATUS status = 0 then [effect.tsample]
          else [])) := by
      unfold handle_terminated_child
      simp only [hj]
      rw [if_pos (show j.num_processes_alive - 1 = 0 by rw [hlast])]
      rw [if_pos hfg]
      simp [hlast]
    refine ⟨?_, ?_, ?_⟩
    · rw [heq]
      simp [update_job, jid2job_set, hjid]
    · rw [heq]; rfl
    · rw [heq]
      simp only [List.mem_append]
      constructor
      · intro h
        rcases h with h | h
        · cases status <;> simp at h
        · split at h
          · next hc => exact hc
          · simp at h
      · intro hc
        right
        rw [if_pos hc]
        simp
  · intro hnfg
    have heq : handle_terminated_child st jid i status =
        (delete_job (list_remove st jid) jid,
         (match status with
          | wstatus.signaled sig => [effect.msg (strsignal sig ++ "\n")]
          | _ => [])) := by
      unfold handle_terminated_child
      simp only [hj]
      rw [if_pos (show j.num_processes_alive - 1 = 0 by rw [hlast])]
      rw [if_neg hnfg]
    refine ⟨?_, ?_⟩
    · rw [heq]
      simp [delete_job, list_remove, jid2job_set]
    · rw [heq]
      simp only [delete_job, list_remove]
      exact hnd.not_mem_erase

/-- Witness for claim C2: reaping the only process of a concrete
foreground job (successful exit) marks it `TERMINATED`, keeps it
registered and re-samples the terminal mode. -/
theorem last_process_termination_witness :
    (handle_terminated_child fg_job_state 1 0 (wstatus.exited 0)).1.jid2job 1 =
      some { fg_job with procs := [], num_processes_alive := 0,
                         status := job_status.TERMINATED } ∧
    effect.tsample ∈ (handle_terminated_child fg_job_state 1 0 (wstatus.exited 0)).2 := by
  have h := (last_process_termination fg_job_state 1 0 (wstatus.exited 0) fg_job
    rfl rfl rfl (by decide)).1 rfl
  exact ⟨h.1, h.2.2.mpr (by decide)⟩

/-- The scan loop of `add_job` finds exactly the smallest free index in
its window, and finds nothing when the whole window is taken. -/
theorem find_free_jid_from_spec (used : Nat → Bool) :
    ∀ (fuel start : Nat),
      (∀ i, find_free_jid_from used start fuel = some i →
         used i = false ∧ start ≤ i ∧ i < start + fuel ∧
         ∀ k, start ≤ k → k < i → used k = true) ∧
      ((∀ k, start ≤ k → k < start + fuel → used k = true) →
        find_free_jid_from used start fuel = none) := by
  intro fuel
  induction fuel with
  | zero =>
      intro start
      constructor
      · intro i h; cases h
      · intro _; rfl
  | succ n ih =>
      intro start
      constructor
      · intro i h
        unfold find_free_jid_from at h
        by_cases hu : used start = true
        · rw [if_pos hu] at h
          obtain ⟨h1, h2, h3, h4⟩ := (ih (start + 1)).1 i h
          refine ⟨h1, by omega, by omega, ?_⟩
          intro k hk1 hk2
          rcases Nat.eq_or_lt_of_le hk1 with he | hl
          · rw [← he]; exact hu
          · exact h4 k hl hk2
        · rw [if_neg hu] at h
          have hi : start = i := Option.some.inj h
          subst hi
          exact ⟨Bool.eq_false_iff.mpr hu, Nat.le_refl _, by omega, fun k hk1 hk2 => by omega⟩
      · intro hall
        unfold find_free_jid_from
        rw [if_pos (hall start (Nat.le_refl _) (by omega))]
        exact (ih (start + 1)).2 (fun k h1 h2 => hall k (by omega) (by omega))

/-- Claim C6: `add_job` creates the job with a live-process count of zero,
assigns the smallest positive id whose slot is free, and inserts it into
both the id-lookup array and the iteration list; when every id of the
bounded namespace `1 .. MAXJOBS-1` is taken it takes the process-aborting
path (`none` models `abort()`; no error value is ever returned). -/
theorem add_job_spec (st : shell_state) (pipe : ast_pipeline) :
    (∀ st' j, add_job st pipe = some (st', j) →
       j.num_processes_alive = 0 ∧
       st'.jid2job j.jid = some j ∧ j.jid ∈ st'.job_list ∧
       0 < j.jid ∧ j.jid < MAXJOBS ∧
       st.jid2job j.jid = none ∧
       (∀ k, 0 < k → k < j.jid → (st.jid2job k).isSome = true)) ∧
    ((∀ k, 0 < k → k < MAXJOBS → (st.jid2job k).isSome = true) →
       add_job st pipe = none) := by
  have hMJ : MAXJOBS = 65536 := rfl
  constructor
  · intro st' j h
    unfold add_job at h
    cases hf : find_free_jid_from (fun i => (st.jid2job i).isSome) 1 (MAXJOBS - 1) with
    | none => rw [hf] at h; cases h
    | some i =>
        rw [hf] at h
        obtain ⟨hfree, hge, hlt, hmin⟩ :=
          (find_free_jid_from_spec _ (MAXJOBS - 1) 1).1 i hf
        simp only [Option.some.injEq, Prod.mk.injEq] at h
        obtain ⟨hst, hjj⟩ := h
        subst hst
        subst hjj
        rw [hMJ] at hlt
        refine ⟨rfl, ?_, ?_, ?_, ?_, ?_, ?_⟩
        · simp [jid2job_set]
        · simp
        · show 0 < i
          omega
        · show i < MAXJOBS
          rw [hMJ]
          omega
        · show st.jid2job i = none
          have hs : (st.jid2job i).isSome = false := hfree
          exact Option.not_isSome_iff_eq_none.mp (by rw [hs]; exact Bool.false_ne_true)
        · intro k h1 h2
          exact hmin k (by omega) h2
  · intro hall
    unfold add_job
    rw [(find_free_jid_from_spec _ (MAXJOBS - 1) 1).2
      (fun k h1 h2 => hall k (by omega) (by omega))]

/-- Witness for claim C6: with every id taken, `add_job` aborts. -/
theorem add_job_spec_witness :
    add_job full_state ⟨[], none, none, false, false⟩ = none :=
  (add_job_spec full_state ⟨[], none, none, false, false⟩).2 (by
    intro k h1 h2
    simp only [full_state]
    rw [if_pos ⟨h1, h2⟩]
    rfl)

/-- The command loop on a pipeline of external commands that all fail to
spawn with `ENOENT`: each failure prints only its "not found" line and the
loop continues; no job is created and the state is untouched. -/
theorem run_commands_all_enoent (pl : ast_pipeline) :
    ∀ (cmds : List ast_command) (st : shell_state) (env : spawn_env) (evs : List wait_result),
      (∀ c ∈ cmds, is_external c) →
      (∀ n, env.pipe_ok n = true) →
      (∀ n, env.spawn_res n = spawn_result.fail ENOENT) →
      ∃ env2 : spawn_env,
        run_commands pl cmds st none 0 env evs =
          cmds_result.ok st none 0 env2 evs
            (cmds.map (fun c =>
              effect.msg (c.argv.getD 0 "" ++ ": No such file or directory\n"))) ∧
        env2.pipe_ok = env.pipe_ok ∧ env2.spawn_res = env.spawn_res := by
  intro cmds
  induction cmds with
  | nil =>
      intro st env evs _ _ _
      exact ⟨env, by unfold run_commands; rfl, rfl, rfl⟩
  | cons c rest ih =>
      intro st env evs hext hp hs
      obtain ⟨hx1, hx2, hx3, hx4, hx5, hx6, hx7, hx8⟩ := hext c (List.mem_cons_self c rest)
      have hrest : ∀ c2 ∈ rest, is_external c2 := fun c2 h2 => hext c2 (List.mem_cons_of_mem c h2)
      have henv1 : ∀ env1 : spawn_env, env1.pipe_ok = env.pipe_ok → env1.spawn_res = env.spawn_res →
          ∃ env2 : spawn_env,
            run_commands pl rest st none 0 env1 evs =
              cmds_result.ok st none 0 env2 evs
                (rest.map (fun c2 =>
                  effect.msg (c2.argv.getD 0 "" ++ ": No such file or directory\n"))) ∧
            env2.pipe_ok = env.pipe_ok ∧ env2.spawn_res = env.spawn_res := by
        intro env1 he1 he2
        obtain ⟨env2, ha, hb, hc⟩ := ih st env1 evs hrest
          (fun n => by rw [he1]; exact hp n) (fun n => by rw [he2]; exact hs n)
        exact ⟨env2, ha, by rw [hb, he1], by rw [hc, he2]⟩
      unfold run_commands
      rw [if_neg (by
        intro hcontra
        rw [hp env.pipe_ix] at hcontra
        exact Bool.noConfusion hcontra.2)]
      rw [if_neg hx1, if_neg hx2, if_neg hx3, if_neg hx4, if_neg hx5, if_neg hx6,
          if_neg hx7, if_neg hx8]
      generalize hE : (if rest.isEmpty = true then env
          else { env with pipe_ix := env.pipe_ix + 1 } : spawn_env) = env1
      have h1p : env1.pipe_ok = env.pipe_ok := by
        rw [← hE]; cases rest.isEmpty <;> rfl
      have h1s : env1.spawn_res = env.spawn_res := by
        rw [← hE]; cases rest.isEmpty <;> rfl
      have hsr : env1.spawn_res env1.spawn_ix = spawn_result.fail ENOENT := by
        rw [h1s]; exact hs _
      simp only [hsr]
      rw [if_pos trivial]
      obtain ⟨env2, ha, hb, hc⟩ := henv1 { env1 with spawn_ix := env1.spawn_ix + 1 }
        (by rw [h1p]) (by rw [h1s])
      rw [ha]
      exact ⟨env2, rfl, hb, hc⟩

/-- Claim C8: a pipeline all of whose (external) commands fail to spawn
with the program-not-found error produces one non-fatal "not found"
message per command, leaves the whole shell state (in particular the job
registry) unchanged, and creates no job entry; the shell continues (an
`ok` result, in contrast to the shell-exiting path taken for other spawn
errors). -/
theorem not_found_creates_no_job (st : shell_state) (pl : ast_pipeline) (env : spawn_env)
    (evs : List wait_result)
    (hext : ∀ c ∈ pl.commands, is_external c)
    (hp : ∀ n, env.pipe_ok n = true)
    (hs : ∀ n, env.spawn_res n = spawn_result.fail ENOENT) :
    ∃ env2, run_pipeline st pl env evs =
      pl_result.ok st env2 evs
        (pl.commands.map (fun c =>
          effect.msg (c.argv.getD 0 "" ++ ": No such file or directory\n"))) := by
  obtain ⟨env2, heq, _, _⟩ := run_commands_all_enoent pl pl.commands st env evs hext hp hs
  refine ⟨env2, ?_⟩
  unfold run_pipeline
  rw [heq]
  rfl

/-- Witness for claim C8 on the concrete pipeline `nope1 | nope2`. -/
theorem not_found_creates_no_job_witness :
    ∃ env2, run_pipeline (initial_state 1) c8_pl enoent_env [] =
      pl_result.ok (initial_state 1) env2 []
        [effect.msg "nope1: No such file or directory\n",
         effect.msg "nope2: No such file or directory\n"] :=
  not_found_creates_no_job (initial_state 1) c8_pl enoent_env []
    (by intro c hc; fin_cases hc <;> exact ⟨by decide, by decide, by decide, by decide,
      by decide, by decide, by decide, by decide⟩)
    (fun _ => rfl) (fun _ => rfl)

/-! ## Registry-invariant machinery shared by the remaining claims -/

theorem set_proc_stopped_length : ∀ (l : List process_t) (i : Nat),
    (set_proc_stopped l i).length = l.length := by
  intro l
  induction l with
  | nil => intro i; cases i <;> rfl
  | cons p rest ih =>
      intro i
      cases i with
      | zero => rfl
      | succ n => simpa [set_proc_stopped] using ih n

theorem find_proc_idx_lt (pid : Nat) : ∀ (l : List process_t) (i : Nat),
    find_proc_idx pid l = some i → i < l.length := by
  intro l
  induction l with
  | nil => intro i h; cases h
  | cons p rest ih =>
      intro i h
      unfold find_proc_idx at h
      split at h
      · have h0 := Option.some.inj h
        subst h0
        simp
      · cases hf : find_proc_idx pid rest with
        | none => rw [hf] at h; cases h
        | some k =>
            rw [hf] at h
            have h0 : k + 1 = i := Option.some.inj h
            subst h0
            have := ih k hf
            simp
            omega

theorem find_pid_go_spec (st : shell_state) (pid : Nat) : ∀ (l : List Nat) (jid i : Nat),
    find_pid_go st pid l = some (jid, i) →
    jid ∈ l ∧ ∃ j, st.jid2job jid = some j ∧
      find_proc_idx pid (j.procs.take j.num_processes_alive) = some i := by
  intro l
  induction l with
  | nil => intro jid i h; cases h
  | cons a rest ih =>
      intro jid i h
      unfold find_pid_go at h
      cases hj : st.jid2job a with
      | none =>
          simp only [hj] at h
          obtain ⟨h1, h2⟩ := ih jid i h
          exact ⟨List.mem_cons_of_mem a h1, h2⟩
      | some j =>
          simp only [hj] at h
          cases hf : find_proc_idx pid (j.procs.take j.num_processes_alive) with
          | none =>
              simp only [hf] at h
              obtain ⟨h1, h2⟩ := ih jid i h
              exact ⟨List.mem_cons_of_mem a h1, h2⟩
          | some k =>
              simp only [hf, Option.some.injEq, Prod.mk.injEq] at h
              obtain ⟨ha, hk⟩ := h
              subst ha
              subst hk
              exact ⟨List.mem_cons_self a rest, j, hj, hf⟩

/-- Everything the invariant proofs need from a successful `find_pid`:
the job, a valid procs index, and a positive live count. -/
theorem find_pid_facts (st : shell_state) (pid jid i : Nat)
    (h : find_pid st pid = some (jid, i)) :
    jid ∈ st.job_list ∧ ∃ j, st.jid2job jid = some j ∧
      i < min j.num_processes_alive j.procs.length ∧ 0 < j.num_processes_alive := by
  obtain ⟨hmem, j, hj, hfp⟩ := find_pid_go_spec st pid st.job_list jid i h
  have hlt := find_proc_idx_lt pid _ i hfp
  rw [List.length_take] at hlt
  exact ⟨hmem, j, hj, hlt, by omega⟩

theorem update_job_lookup (st : shell_state) (j : job) (k : Nat) :
    (update_job st j).jid2job k = if k = j.jid then some j else st.jid2job k := rfl

theorem update_job_list (st : shell_state) (j : job) :
    (update_job st j).job_list = st.job_list := rfl

theorem remove_delete_lookup (st : shell_state) (jid k : Nat) :
    (delete_job (list_remove st jid) jid).jid2job k =
      if k = jid then none else st.jid2job k := rfl

/-- Successful lookup after `update_job`: either the written slot with the
written job, or an unchanged slot. -/
theorem update_job_cases (st : shell_state) (j2 : job) (k : Nat) (jk : job)
    (hk : (update_job st j2).jid2job k = some jk) :
    (k = j2.jid ∧ jk = j2) ∨ (k ≠ j2.jid ∧ st.jid2job k = some jk) := by
  rw [update_job_lookup] at hk
  by_cases hkj : k = j2.jid
  · rw [if_pos hkj] at hk
    exact Or.inl ⟨hkj, (Option.some.inj hk).symm⟩
  · rw [if_neg hkj] at hk
    exact Or.inr ⟨hkj, hk⟩

/-- Successful lookup after `list_remove` + `delete_job`: an unchanged
slot other than the deleted one. -/
theorem remove_delete_cases (st : shell_state) (jid k : Nat) (jk : job)
    (hk : (delete_job (list_remove st jid) jid).jid2job k = some jk) :
    k ≠ jid ∧ st.jid2job k = some jk := by
  rw [remove_delete_lookup] at hk
  by_cases hkj : k = jid
  · rw [if_pos hkj] at hk; cases hk
  · rw [if_neg hkj] at hk; exact ⟨hkj, hk⟩

/-- `handle_stopped_child` preserves the mid-operation invariant, for any
distinguished job `t`. -/
theorem handle_stopped_preserves_mid (t : Nat) (st : shell_state) (jid i : Nat)
    (ws : wstatus) (hmi : mid_inv st t) (j : job) (hj : st.jid2job jid = some j)
    (hpos : 0 < j.num_processes_alive) :
    mid_inv (handle_stopped_child st jid i ws).1 t := by
  obtain ⟨hjid, hlen, hout, _⟩ := hmi jid j hj
  unfold handle_stopped_child
  simp only [hj]
  split
  · exact fun k jk hk => hmi k jk hk
  · split
    · intro k jk hk
      rcases update_job_cases _ _ _ _ hk with ⟨hkj, hjk⟩ | ⟨_, hold⟩
      · subst hjk
        have hk2 : k = jid := by rw [hkj]; exact hjid
        refine ⟨?_, ?_, ?_, ?_⟩
        · show j.jid = k
          rw [hk2]; exact hjid
        · show j.num_processes_alive = (set_proc_stopped j.procs i).length
          rw [set_proc_stopped_length]; exact hlen
        · intro _
          refine ⟨hpos, ?_, ?_⟩
          · show (if WSTOPSIG ws = SIGTTOU ∨ WSTOPSIG ws = SIGTTIN
                  then job_status.NEEDSTERMINAL else job_status.STOPPED) ≠
              job_status.FOREGROUND
            split <;> simp
          · show (if WSTOPSIG ws = SIGTTOU ∨ WSTOPSIG ws = SIGTTIN
                  then job_status.NEEDSTERMINAL else job_status.STOPPED) ≠
              job_status.TERMINATED
            split <;> simp
        · intro _ h0
          exact absurd h0 (Nat.pos_iff_ne_zero.mp hpos)
      · exact hmi k jk hold
    · intro k jk hk
      rcases update_job_cases _ _ _ _ hk with ⟨hkj, hjk⟩ | ⟨_, hold⟩
      · subst hjk
        have hk2 : k = jid := by rw [hkj]; exact hjid
        refine ⟨?_, ?_, ?_, ?_⟩
        · show j.jid = k
          rw [hk2]; exact hjid
        · show j.num_processes_alive = (set_proc_stopped j.procs i).length
          rw [set_proc_stopped_length]; exact hlen
        · intro hne
          obtain ⟨_, hfg, hterm⟩ := hout (by rw [hk2] at hne; exact hne)
          exact ⟨hpos, hfg, hterm⟩
        · intro _ h0
          exact absurd h0 (Nat.pos_iff_ne_zero.mp hpos)
      · exact hmi k jk hold

/-- `handle_terminated_child` preserves the mid-operation invariant, for
any distinguished job `t`. -/
theorem handle_terminated_preserves_mid (t : Nat) (st : shell_state) (jid i : Nat)
    (ws : wstatus) (hmi : mid_inv st t) (j : job) (hj : st.jid2job jid = some j)
    (hi : i < j.procs.length) :
    mid_inv (handle_terminated_child st jid i ws).1 t := by
  obtain ⟨hjid, hlen, hout, _⟩ := hmi jid j hj
  have herase : (j.procs.eraseIdx i).length = j.procs.length - 1 :=
    List.length_eraseIdx_of_lt hi
  unfold handle_terminated_child
  simp only [hj]
  split
  · next h0 =>
      split
      · next hfg =>
          intro k jk hk
          rcases update_job_cases _ _ _ _ hk with ⟨hkj, hjk⟩ | ⟨_, hold⟩
          · subst hjk
            have hk2 : k = jid := by rw [hkj]; exact hjid
            have hjt : jid = t := by
              by_contra hne
              exact absurd hfg (hout hne).2.1
            refine ⟨?_, ?_, ?_, fun _ _ => rfl⟩
            · show j.jid = k
              rw [hk2]; exact hjid
            · show j.num_processes_alive - 1 = (j.procs.eraseIdx i).length
              omega
            · intro hne
              rw [hk2] at hne
              exact absurd hjt hne
          · exact hmi k jk hold
      · intro k jk hk
        obtain ⟨_, hold⟩ := remove_delete_cases _ _ _ _ hk
        exact hmi k jk hold
  · next h0 =>
      intro k jk hk
      rcases update_job_cases _ _ _ _ hk with ⟨hkj, hjk⟩ | ⟨_, hold⟩
      · subst hjk
        have hk2 : k = jid := by rw [hkj]; exact hjid
        refine ⟨?_, ?_, ?_, ?_⟩
        · show j.jid = k
          rw [hk2]; exact hjid
        · show j.num_processes_alive - 1 = (j.procs.eraseIdx i).length
          omega
        · intro hne
          rw [hk2] at hne
          obtain ⟨_, hfg, hterm⟩ := hout hne
          refine ⟨?_, hfg, hterm⟩
          show 0 < j.num_processes_alive - 1
          omega
        · intro _ hzero
          exact absurd hzero h0
      · exact hmi k jk hold

/-- The Status Reaper preserves the mid-operation invariant. -/
theorem hcs_preserves_mid (t : Nat) (st : shell_state) (pid : Nat) (ws : wstatus)
    (st1 : shell_state) (effs : List effect) (hmi : mid_inv st t)
    (h : handle_child_status st pid ws = reap_result.ok st1 effs) : mid_inv st1 t := by
  unfold handle_child_status at h
  cases hf : find_pid st pid with
  | none => rw [hf] at h; cases h
  | some pr =>
      obtain ⟨jid, i⟩ := pr
      rw [hf] at h
      obtain ⟨_, j, hj, hilt, hpos⟩ := find_pid_facts st pid jid i hf
      have hlen := (hmi jid j hj).2.1
      have hi : i < j.procs.length := by omega
      cases ws with
      | stopped s =>
          cases h
          exact handle_stopped_preserves_mid t st jid i (wstatus.stopped s) hmi j hj hpos
      | exited c =>
          cases h
          exact handle_terminated_preserves_mid t st jid i (wstatus.exited c) hmi j hj hi
      | signaled s =>
          cases h
          exact handle_terminated_preserves_mid t st jid i (wstatus.signaled s) hmi j hj hi

/-- `handle_stopped_child` preserves registry well-formedness. -/
theorem handle_stopped_preserves_wf (st : shell_state) (jid i : Nat) (ws : wstatus)
    (hwf : jobs_wf st) (j : job) (hj : st.jid2job jid = some j) :
    jobs_wf (handle_stopped_child st jid i ws).1 := by
  obtain ⟨hjid, hlen⟩ := hwf jid j hj
  unfold handle_stopped_child
  simp only [hj]
  split
  · exact fun k jk hk => hwf k jk hk
  · have hone : ∀ j2 : job, j2.jid = j.jid →
        j2.num_processes_alive = j.num_processes_alive →
        j2.procs.length = (set_proc_stopped j.procs i).length →
        jobs_wf (update_job st j2) := by
      intro j2 h1 h2 h3 k jk hk
      rcases update_job_cases _ _ _ _ hk with ⟨hkj, hjk⟩ | ⟨_, hold⟩
      · subst hjk
        refine ⟨hkj.symm, ?_⟩
        rw [h2, h3, set_proc_stopped_length]
        exact hlen
      · exact hwf k jk hold
    split
    · exact hone _ rfl rfl rfl
    · exact hone _ rfl rfl rfl

/-- `handle_terminated_child` preserves registry well-formedness. -/
theorem handle_terminated_preserves_wf (st : shell_state) (jid i : Nat) (ws : wstatus)
    (hwf : jobs_wf st) (j : job) (hj : st.jid2job jid = some j)
    (hi : i < j.procs.length) :
    jobs_wf (handle_terminated_child st jid i ws).1 := by
  obtain ⟨hjid, hlen⟩ := hwf jid j hj
  have herase : (j.procs.eraseIdx i).length = j.procs.length - 1 :=
    List.length_eraseIdx_of_lt hi
  have hone : ∀ j2 : job, j2.jid = j.jid →
      j2.num_processes_alive = j.num_processes_alive - 1 →
      j2.procs.length = (j.procs.eraseIdx i).length →
      jobs_wf (update_job st j2) := by
    intro j2 h1 h2 h3 k jk hk
    rcases update_job_cases _ _ _ _ hk with ⟨hkj, hjk⟩ | ⟨_, hold⟩
    · subst hjk
      refine ⟨hkj.symm, ?_⟩
      rw [h2, h3, herase, hlen]
    · exact hwf k jk hold
  unfold handle_terminated_child
  simp only [hj]
  split
  · split
    · exact hone _ rfl rfl rfl
    · intro k jk hk
      obtain ⟨_, hold⟩ := remove_delete_cases _ _ _ _ hk
      exact hwf k jk hold
  · exact hone _ rfl rfl rfl

/-- The Status Reaper preserves registry well-formedness. -/
theorem hcs_preserves_wf (st : shell_state) (pid : Nat) (ws : wstatus)
    (st1 : shell_state) (effs : List effect) (hwf : jobs_wf st)
    (h : handle_child_status st pid ws = reap_result.ok st1 effs) : jobs_wf st1 := by
  unfold handle_child_status at h
  cases hf : find_pid st pid with
  | none => rw [hf] at h; cases h
  | some pr =>
      obtain ⟨jid, i⟩ := pr
      rw [hf] at h
      obtain ⟨_, j, hj, hilt, hpos⟩ := find_pid_facts st pid jid i hf
      have hi : i < j.procs.length := by omega
      cases ws with
      | stopped s =>
          cases h
          exact handle_stopped_preserves_wf st jid i (wstatus.stopped s) hwf j hj
      | exited c =>
          cases h
          exact handle_terminated_preserves_wf st jid i (wstatus.exited c) hwf j hj hi
      | signaled s =>
          cases h
          exact handle_terminated_preserves_wf st jid i (wstatus.signaled s) hwf j hj hi

/-- `wait_for_job` preserves registry well-formedness. -/
theorem wait_preserves_wf (jid : Nat) : ∀ (evs : List wait_result) (st : shell_state),
    jobs_wf st → ∀ st1 effs r, wait_for_job jid st evs = wait_outcome.ok st1 effs r →
    jobs_wf st1 := by
  intro evs
  induction evs with
  | nil =>
      intro st hwf st1 effs r h
      rw [wait_for_job_nil] at h
      cases hj : st.jid2job jid with
      | none => simp only [hj] at h; cases h; exact hwf
      | some j =>
          simp only [hj] at h
          split at h
          · cases h
          · cases h; exact hwf
  | cons ev rest ih =>
      intro st hwf st1 effs r h
      rw [wait_for_job_cons] at h
      cases hj : st.jid2job jid with
      | none => simp only [hj] at h; cases h; exact hwf
      | some j =>
          simp only [hj] at h
          split at h
          · cases ev with
            | nochild => cases h
            | child pid ws =>
                cases hh : handle_child_status st pid ws with
                | fatal c e => simp only [hh] at h; cases h
                | ok stA effsA =>
                    simp only [hh] at h
                    cases hw : wait_for_job jid stA rest with
                    | ok stB effsB rB =>
                        simp only [hw] at h
                        cases h
                        exact ih stA (hcs_preserves_wf st pid ws stA effsA hwf hh) _ _ _ hw
                    | fatal c e => simp only [hw] at h; cases h
                    | blocked e => simp only [hw] at h; cases h
          · cases h; exact hwf

/-- `wait_for_job t` preserves the mid-operation invariant for `t`, and on
a normal return the waited job (if still registered) is no longer an
unfinished foreground job. -/
theorem wait_preserves_mid (t : Nat) : ∀ (evs : List wait_result) (st : shell_state),
    mid_inv st t → ∀ st1 effs r, wait_for_job t st evs = wait_outcome.ok st1 effs r →
    mid_inv st1 t ∧
    (∀ j1, st1.jid2job t = some j1 →
       ¬(j1.status = job_status.FOREGROUND ∧ 0 < j1.num_processes_alive)) := by
  intro evs
  induction evs with
  | nil =>
      intro st hmi st1 effs r h
      rw [wait_for_job_nil] at h
      cases hj : st.jid2job t with
      | none =>
          simp only [hj] at h
          cases h
          refine ⟨hmi, ?_⟩
          intro j1 hj1
          rw [hj] at hj1
          cases hj1
      | some j =>
          simp only [hj] at h
          split at h
          · cases h
          · next hc =>
              cases h
              refine ⟨hmi, ?_⟩
              intro j1 hj1
              rw [hj] at hj1
              have := Option.some.inj hj1
              subst this
              exact hc
  | cons ev rest ih =>
      intro st hmi st1 effs r h
      rw [wait_for_job_cons] at h
      cases hj : st.jid2job t with
      | none =>
          simp only [hj] at h
          cases h
          refine ⟨hmi, ?_⟩
          intro j1 hj1
          rw [hj] at hj1
          cases hj1
      | some j =>
          simp only [hj] at h
          split at h
          · cases ev with
            | nochild => cases h
            | child pid ws =>
                cases hh : handle_child_status st pid ws with
                | fatal c e => simp only [hh] at h; cases h
                | ok stA effsA =>
                    simp only [hh] at h
                    cases hw : wait_for_job t stA rest with
                    | ok stB effsB rB =>
                        simp only [hw] at h
                        cases h
                        exact ih stA (hcs_preserves_mid t st pid ws stA effsA hmi hh) _ _ _ hw
                    | fatal c e => simp only [hw] at h; cases h
                    | blocked e => simp only [hw] at h; cases h
          · next hc =>
              cases h
              refine ⟨hmi, ?_⟩
              intro j1 hj1
              rw [hj] at hj1
              have := Option.some.inj hj1
              subst this
              exact hc

/-- The boundary invariant is the mid-operation invariant for every
possible distinguished job. -/
theorem binv_to_mid (st : shell_state) (t : Nat) (hb : boundary_inv st) : mid_inv st t := by
  intro jid j hj
  obtain ⟨h1, h2, h3, h4, h5⟩ := hb jid j hj
  exact ⟨h1, h2, fun _ => ⟨h3, h4, h5⟩, fun _ h0 => absurd h0 (by omega)⟩

/-- If the distinguished job is not registered, the mid-operation
invariant collapses back to the boundary invariant. -/
theorem mid_unmapped_binv (st : shell_state) (t : Nat) (hm : mid_inv st t)
    (hnone : st.jid2job t = none) : boundary_inv st := by
  intro jid j hj
  obtain ⟨h1, h2, h3, _⟩ := hm jid j hj
  have hne : jid ≠ t := by
    intro he
    rw [he, hnone] at hj
    cases hj
  obtain ⟨h4, h5, h6⟩ := h3 hne
  exact ⟨h1, h2, h4, h5, h6⟩

/-- Deleting the distinguished job restores the boundary invariant. -/
theorem mid_del_binv (st : shell_state) (t : Nat) (hm : mid_inv st t) :
    boundary_inv (delete_job (list_remove st t) t) := by
  intro jid j hj
  obtain ⟨hne, hold⟩ := remove_delete_cases _ _ _ _ hj
  obtain ⟨h1, h2, h3, _⟩ := hm jid j hold
  obtain ⟨h4, h5, h6⟩ := h3 hne
  exact ⟨h1, h2, h4, h5, h6⟩

/-- If the distinguished job is registered but no longer an unfinished
foreground job and not terminated, the boundary invariant holds again. -/
theorem mid_resolved_binv (st : shell_state) (t : Nat) (hm : mid_inv st t) (j : job)
    (hj : st.jid2job t = some j)
    (hnc : ¬(j.status = job_status.FOREGROUND ∧ 0 < j.num_processes_alive))
    (hnt : j.status ≠ job_status.TERMINATED) : boundary_inv st := by
  intro jid jk hk
  obtain ⟨h1, h2, h3, h0⟩ := hm jid jk hk
  by_cases hne : jid = t
  · subst hne
    rw [hj] at hk
    have hjeq := Option.some.inj hk
    subst hjeq
    have hpos : 0 < j.num_processes_alive := by
      rcases Nat.eq_zero_or_pos j.num_processes_alive with hz | hp
      · exact absurd (h0 rfl hz) hnt
      · exact hp
    have hfg : j.status ≠ job_status.FOREGROUND := fun hf => hnc ⟨hf, hpos⟩
    exact ⟨h1, h2, hpos, hfg, hnt⟩
  · obtain ⟨h4, h5, h6⟩ := h3 hne
    exact ⟨h1, h2, h4, h5, h6⟩

/-- Marking a boundary-invariant job `FOREGROUND` establishes the
mid-operation invariant distinguished at its slot. -/
theorem update_fg_mid (st : shell_state) (jid : Nat) (j : job) (hb : boundary_inv st)
    (hj : st.jid2job jid = some j) :
    mid_inv (update_job st { j with status := job_status.FOREGROUND }) j.jid := by
  obtain ⟨hjid, hlen, hpos, _, _⟩ := hb jid j hj
  intro k jk hk
  rcases update_job_cases _ _ _ _ hk with ⟨hkj, hjk⟩ | ⟨hne, hold⟩
  · subst hjk
    refine ⟨hkj.symm, hlen, ?_, ?_⟩
    · intro hne2
      exact absurd hkj hne2
    · intro _ h0
      exact absurd h0 (Nat.pos_iff_ne_zero.mp hpos)
  · have hkt : k ≠ j.jid := hne
    obtain ⟨h1, h2, h3, h4, h5⟩ := hb k jk hold
    exact ⟨h1, h2, fun _ => ⟨h3, h4, h5⟩, fun he _ => absurd he hkt⟩

/-- A `get_job_from_jid` hit is a `jid2job` hit. -/
theorem get_job_hit (st : shell_state) (jid : Int) (j : job)
    (hg : get_job_from_jid st jid = some j) : st.jid2job jid.toNat = some j := by
  unfold get_job_from_jid at hg
  split at hg
  · exact hg
  · cases hg

/-- `exit_builtin_go` never returns control to its caller. -/
theorem exit_go_no_ok : ∀ (jids : List Nat) (st : shell_state) (evs : List wait_result)
    (st1 : shell_state) (evs1 : List wait_result) (effs : List effect),
    exit_builtin_go jids st evs ≠ bi_result.ok st1 evs1 effs := by
  intro jids
  induction jids with
  | nil => intro st evs st1 evs1 effs h; cases h
  | cons a rest ih =>
      intro st evs st1 evs1 effs h
      unfold exit_builtin_go at h
      cases hj : st.jid2job a with
      | none =>
          simp only [hj] at h
          exact ih _ _ _ _ _ h
      | some j =>
          simp only [hj] at h
          cases hw : wait_for_job a (update_job st { j with status := job_status.FOREGROUND })
              evs with
          | ok stA effsA r =>
              simp only [hw] at h
              cases hgo : exit_builtin_go rest stA r with
              | ok b1 b2 b3 => exact ih _ _ _ _ _ hgo
              | exited c e => rw [hgo] at h; simp [bi_result.prepend] at h
              | fatal c e => rw [hgo] at h; simp [bi_result.prepend] at h
              | blocked e => rw [hgo] at h; simp [bi_result.prepend] at h
          | fatal c e => simp only [hw] at h; cases h
          | blocked e => simp only [hw] at h; cases h

/-- Inversion of `bi_result.prepend` at an `ok` value. -/
theorem bi_prepend_ok (e : List effect) (r : bi_result) (st : shell_state)
    (evs : List wait_result) (effs : List effect)
    (h : r.prepend e = bi_result.ok st evs effs) :
    ∃ effs0, r = bi_result.ok st evs effs0 ∧ effs = e ++ effs0 := by
  cases r with
  | ok a b c =>
      simp only [bi_result.prepend] at h
      cases h
      exact ⟨c, rfl, rfl⟩
  | exited c effs2 => simp [bi_result.prepend] at h
  | fatal c effs2 => simp [bi_result.prepend] at h
  | blocked effs2 => simp [bi_result.prepend] at h

/-- Inversion of `bi_result.to_cmds` at an `ok` value. -/
theorem to_cmds_ok (jo : Option Nat) (pg : Nat) (env : spawn_env) (r : bi_result)
    (st : shell_state) (jo2 : Option Nat) (pg2 : Nat) (env2 : spawn_env)
    (evs : List wait_result) (effs : List effect)
    (h : r.to_cmds jo pg env = cmds_result.ok st jo2 pg2 env2 evs effs) :
    r = bi_result.ok st evs effs := by
  cases r with
  | ok a b c => simp only [bi_result.to_cmds] at h; cases h; rfl
  | exited c e => simp [bi_result.to_cmds] at h
  | fatal c e => simp [bi_result.to_cmds] at h
  | blocked e => simp [bi_result.to_cmds] at h

/-- Inversion of `cmds_result.prepend` at an `ok` value. -/
theorem cmds_prepend_ok (e : List effect) (r : cmds_result) (st : shell_state)
    (jo : Option Nat) (pg : Nat) (env : spawn_env) (evs : List wait_result)
    (effs : List effect)
    (h : r.prepend e = cmds_result.ok st jo pg env evs effs) :
    ∃ effs0, r = cmds_result.ok st jo pg env evs effs0 ∧ effs = e ++ effs0 := by
  cases r with
  | ok a b c d f g =>
      simp only [cmds_result.prepend] at h
      cases h
      exact ⟨g, rfl, rfl⟩
  | exited c e2 => simp [cmds_result.prepend] at h
  | fatal c e2 => simp [cmds_result.prepend] at h
  | blocked e2 => simp [cmds_result.prepend] at h

/-- Setting a registered job's status (only) preserves registry
well-formedness. -/
theorem update_status_wf (st : shell_state) (jid : Nat) (j : job) (s : job_status)
    (hwf : jobs_wf st) (hj : st.jid2job jid = some j) :
    jobs_wf (update_job st { j with status := s }) := by
  intro k jk hk
  rcases update_job_cases _ _ _ _ hk with ⟨hkj, hjk⟩ | ⟨_, hold⟩
  · subst hjk
    exact ⟨hkj.symm, (hwf jid j hj).2⟩
  · exact hwf k jk hold

/-- Removing a job preserves registry well-formedness. -/
theorem remove_delete_wf (st : shell_state) (jid : Nat) (hwf : jobs_wf st) :
    jobs_wf (delete_job (list_remove st jid) jid) := by
  intro k jk hk
  obtain ⟨_, hold⟩ := remove_delete_cases _ _ _ _ hk
  exact hwf k jk hold

/-- `kill_builtin` preserves the boundary invariant: it marks its target
`FOREGROUND`, waits (under the mid-operation invariant) and then removes
the target unconditionally. -/
theorem kill_preserves_binv (st : shell_state) (argv : List String)
    (evs : List wait_result) (hb : boundary_inv st) (st1 : shell_state)
    (evs1 : List wait_result) (effs : List effect)
    (h : kill_builtin st argv evs = bi_result.ok st1 evs1 effs) :
    boundary_inv st1 := by
  unfold kill_builtin at h
  cases hg : get_job_from_jid st (atoi (argv.getD 1 "")) with
  | none => simp only [hg] at h; cases h; exact hb
  | some j =>
      simp only [hg] at h
      have hj := get_job_hit st _ j hg
      have hmid : mid_inv (update_job st { j with status := job_status.FOREGROUND })
          j.jid := update_fg_mid st _ j hb hj
      cases hw : wait_for_job j.jid
          (update_job st { j with status := job_status.FOREGROUND }) evs with
      | ok stA effsA r =>
          simp only [hw] at h
          cases h
          exact mid_del_binv stA j.jid (wait_preserves_mid j.jid evs _ hmid _ _ _ hw).1
      | fatal c e => simp only [hw] at h; cases h
      | blocked e => simp only [hw] at h; cases h

/-- `kill_builtin` preserves registry well-formedness. -/
theorem kill_preserves_wf (st : shell_state) (argv : List String)
    (evs : List wait_result) (hwf : jobs_wf st) (st1 : shell_state)
    (evs1 : List wait_result) (effs : List effect)
    (h : kill_builtin st argv evs = bi_result.ok st1 evs1 effs) : jobs_wf st1 := by
  unfold kill_builtin at h
  cases hg : get_job_from_jid st (atoi (argv.getD 1 "")) with
  | none => simp only [hg] at h; cases h; exact hwf
  | some j =>
      simp only [hg] at h
      have hj := get_job_hit st _ j hg
      cases hw : wait_for_job j.jid
          (update_job st { j with status := job_status.FOREGROUND }) evs with
      | ok stA effsA r =>
          simp only [hw] at h
          cases h
          exact remove_delete_wf _ _ (wait_preserves_wf j.jid evs _
            (update_status_wf st _ j job_status.FOREGROUND hwf hj) _ _ _ hw)
      | fatal c e => simp only [hw] at h; cases h
      | blocked e => simp only [hw] at h; cases h

/-- `fg_builtin` preserves the boundary invariant: the target is marked
`FOREGROUND` and waited on; on return it is deleted when `TERMINATED` and
otherwise is a stopped (non-foreground, live) job again. -/
theorem fg_preserves_binv (st : shell_state) (argv : List String)
    (evs : List wait_result) (hb : boundary_inv st) (st1 : shell_state)
    (evs1 : List wait_result) (effs : List effect)
    (h : fg_builtin st argv evs = bi_result.ok st1 evs1 effs) :
    boundary_inv st1 := by
  unfold fg_builtin at h
  cases hg : get_job_from_jid st (atoi (argv.getD 1 "")) with
  | none => simp only [hg] at h; cases h; exact hb
  | some j =>
      simp only [hg] at h
      have hj := get_job_hit st _ j hg
      have hmid0 : mid_inv (update_job st { j with status := job_status.FOREGROUND })
          j.jid := update_fg_mid st _ j hb hj
      have hmid : mid_inv { update_job st { j with status := job_status.FOREGROUND }
          with term_owner := j.pgid } j.jid := fun k jk hk => hmid0 k jk hk
      cases hw : wait_for_job j.jid { update_job st
          { j with status := job_status.FOREGROUND } with term_owner := j.pgid } evs with
      | ok stA effsA r =>
          simp only [hw] at h
          obtain ⟨hmidA, hres⟩ := wait_preserves_mid j.jid evs _ hmid _ _ _ hw
          cases hl : stA.jid2job j.jid with
          | some j2 =>
              simp only [hl] at h
              by_cases ht : j2.status = job_status.TERMINATED
              · rw [if_pos ht] at h
                have hst : delete_job (list_remove stA j.jid) j.jid = st1 := by
                  injection h
                rw [← hst]
                exact mid_del_binv stA j.jid hmidA
              · rw [if_neg ht] at h
                have hst : stA = st1 := by injection h
                rw [← hst]
                exact mid_resolved_binv stA j.jid hmidA j2 hl (hres j2 hl) ht
          | none =>
              simp only [hl] at h
              have hst : stA = st1 := by injection h
              rw [← hst]
              exact mid_unmapped_binv stA j.jid hmidA hl
      | fatal c e => simp only [hw] at h; cases h
      | blocked e => simp only [hw] at h; cases h

/-- `fg_builtin` preserves registry well-formedness. -/
theorem fg_preserves_wf (st : shell_state) (argv : List String)
    (evs : List wait_result) (hwf : jobs_wf st) (st1 : shell_state)
    (evs1 : List wait_result) (effs : List effect)
    (h : fg_builtin st argv evs = bi_result.ok st1 evs1 effs) : jobs_wf st1 := by
  unfold fg_builtin at h
  cases hg : get_job_from_jid st (atoi (argv.getD 1 "")) with
  | none => simp only [hg] at h; cases h; exact hwf
  | some j =>
      simp only [hg] at h
      have hj := get_job_hit st _ j hg
      have hwf0 : jobs_wf { update_job st { j with status := job_status.FOREGROUND }
          with term_owner := j.pgid } := fun k jk hk =>
        update_status_wf st _ j job_status.FOREGROUND hwf hj k jk hk
      cases hw : wait_for_job j.jid { update_job st
          { j with status := job_status.FOREGROUND } with term_owner := j.pgid } evs with
      | ok stA effsA r =>
          simp only [hw] at h
          have hwfA := wait_preserves_wf j.jid evs _ hwf0 _ _ _ hw
          cases hl : stA.jid2job j.jid with
          | some j2 =>
              simp only [hl] at h
              by_cases ht : j2.status = job_status.TERMINATED
              · rw [if_pos ht] at h
                cases h
                exact remove_delete_wf _ _ hwfA
              · rw [if_neg ht] at h
                cases h
                exact hwfA
          | none =>
              simp only [hl] at h
              cases h
              exact hwfA
      | fatal c e => simp only [hw] at h; cases h
      | blocked e => simp only [hw] at h; cases h

/-- `bg_builtin` preserves the boundary invariant (its target becomes a
live `BACKGROUND` job). -/
theorem bg_preserves_binv (st : shell_state) (argv : List String)
    (hb : boundary_inv st) : boundary_inv (bg_builtin st argv).1 := by
  unfold bg_builtin
  cases hg : get_job_from_jid st (atoi (argv.getD 1 "")) with
  | none => simp only [hg]; exact hb
  | some j =>
      simp only [hg]
      intro k jk hk
      rcases update_job_cases _ _ _ _ hk with ⟨hkj, hjk⟩ | ⟨_, hold⟩
      · subst hjk
        have hj := get_job_hit st _ j hg
        obtain ⟨h1, h2, h3, _, _⟩ := hb _ _ hj
        refine ⟨?_, h2, h3, by simp, by simp⟩
        show j.jid = k
        rw [hkj]
      · exact hb k jk hold

/-- `bg_builtin` preserves registry well-formedness. -/
theorem bg_preserves_wf (st : shell_state) (argv : List String)
    (hwf : jobs_wf st) : jobs_wf (bg_builtin st argv).1 := by
  unfold bg_builtin
  cases hg : get_job_from_jid st (atoi (argv.getD 1 "")) with
  | none => simp only [hg]; exact hwf
  | some j =>
      simp only [hg]
      exact update_status_wf st _ j job_status.BACKGROUND hwf (get_job_hit st _ j hg)

/-- `stop_builtin` leaves the state untouched. -/
theorem stop_state (st : shell_state) (argv : List String) :
    (stop_builtin st argv).1 = st := by
  unfold stop_builtin
  cases hg : get_job_from_jid st (atoi (argv.getD 1 "")) <;> simp only [hg]

/-- What `add_job` does to the state, in lookup form. -/
theorem add_job_lookup (st : shell_state) (pl : ast_pipeline) (st1 : shell_state) (j0 : job)
    (h : add_job st pl = some (st1, j0)) :
    (∀ k, st1.jid2job k = if k = j0.jid then some j0 else st.jid2job k) ∧
    st1.job_list = st.job_list ++ [j0.jid] ∧ j0.num_processes_alive = 0 ∧ j0.procs = [] ∧
    st.jid2job j0.jid = none ∧ st1.term_owner = st.term_owner := by
  unfold add_job at h
  cases hf : find_free_jid_from (fun i => (st.jid2job i).isSome) 1 (MAXJOBS - 1) with
  | none => rw [hf] at h; cases h
  | some i =>
      rw [hf] at h
      simp only [Option.some.injEq, Prod.mk.injEq] at h
      obtain ⟨hst, hj⟩ := h
      subst hst
      subst hj
      refine ⟨fun k => rfl, rfl, rfl, rfl, ?_, rfl⟩
      have hfree := ((find_free_jid_from_spec (fun i => (st.jid2job i).isSome)
        (MAXJOBS - 1) 1).1 i hf).1
      show st.jid2job i = none
      exact Option.not_isSome_iff_eq_none.mp (by rw [hfree]; exact Bool.noConfusion)

/-- Registering a fresh one-process job preserves registry
well-formedness. -/
theorem spawn_new_wf (st : shell_state) (pl : ast_pipeline) (st1 : shell_state) (j0 : job)
    (j2 : job) (hwf : jobs_wf st) (h : add_job st pl = some (st1, j0))
    (hjid : j2.jid = j0.jid)
    (hgood : j2.num_processes_alive = j2.procs.length) :
    jobs_wf (update_job st1 j2) := by
  have hlk := (add_job_lookup st pl st1 j0 h).1
  intro k jk hk
  rcases update_job_cases _ _ _ _ hk with ⟨hkj, hjk⟩ | ⟨_, hold⟩
  · subst hjk
    exact ⟨hkj.symm, hgood⟩
  · rw [hlk k] at hold
    by_cases hki : k = j0.jid
    · rw [if_pos hki] at hold
      have := Option.some.inj hold
      subst this
      exact ⟨hki.symm, (add_job_lookup st pl st1 j0 h).2.2.2.1 ▸
        (add_job_lookup st pl st1 j0 h).2.2.1⟩
    · rw [if_neg hki] at hold
      exact hwf k jk hold

/-- Appending a process to a registered job preserves registry
well-formedness. -/
theorem spawn_append_wf (st : shell_state) (tjid : Nat) (j : job) (p : process_t)
    (hwf : jobs_wf st) (hj : st.jid2job tjid = some j) :
    jobs_wf (update_job st
      { j with procs := j.procs ++ [p],
               num_processes_alive := j.num_processes_alive + 1 }) := by
  intro k jk hk
  rcases update_job_cases _ _ _ _ hk with ⟨hkj, hjk⟩ | ⟨_, hold⟩
  · subst hjk
    refine ⟨hkj.symm, ?_⟩
    show j.num_processes_alive + 1 = (j.procs ++ [p]).length
    rw [List.length_append, (hwf tjid j hj).2]
    rfl
  · exact hwf k jk hold

/-- The command loop preserves registry well-formedness (no restriction on
which builtins appear where). -/
theorem run_commands_preserves_wf (pl : ast_pipeline) :
    ∀ (cmds : List ast_command) (st : shell_state) (jo : Option Nat) (pg : Nat)
      (env : spawn_env) (evs : List wait_result) (st1 : shell_state) (jo1 : Option Nat)
      (pg1 : Nat) (env1 : spawn_env) (evs1 : List wait_result) (effs : List effect),
      jobs_wf st →
      run_commands pl cmds st jo pg env evs = cmds_result.ok st1 jo1 pg1 env1 evs1 effs →
      jobs_wf st1 := by
  intro cmds
  induction cmds with
  | nil =>
      intro st jo pg env evs st1 jo1 pg1 env1 evs1 effs hwf h
      unfold run_commands at h
      cases h
      exact hwf
  | cons c rest ih =>
      intro st jo pg env evs st1 jo1 pg1 env1 evs1 effs hwf h
      unfold run_commands at h
      by_cases hpf : rest.isEmpty = false ∧ env.pipe_ok env.pipe_ix = false
      · rw [if_pos hpf] at h
        have hto := to_cmds_ok _ _ _ _ _ _ _ _ _ _ h
        obtain ⟨e0, hex, _⟩ := bi_prepend_ok _ _ _ _ _ hto
        exact absurd hex (exit_go_no_ok _ _ _ _ _ _)
      · rw [if_neg hpf] at h
        generalize hE : (if rest.isEmpty = true then env
            else { env with pipe_ix := env.pipe_ix + 1 } : spawn_env) = envA at h
        by_cases h1 : c.argv.getD 0 "" = "exit"
        · rw [if_pos h1] at h
          have hto := to_cmds_ok _ _ _ _ _ _ _ _ _ _ h
          exact absurd hto (exit_go_no_ok _ _ _ _ _ _)
        · rw [if_neg h1] at h
          by_cases h2 : c.argv.getD 0 "" = "jobs"
          · rw [if_pos h2] at h
            obtain ⟨e0, hrec, _⟩ := cmds_prepend_ok _ _ _ _ _ _ _ _ h
            exact ih _ _ _ _ _ _ _ _ _ _ _ hwf hrec
          · rw [if_neg h2] at h
            by_cases h3 : c.argv.getD 0 "" = "kill"
            · rw [if_pos h3] at h
              cases hk : kill_builtin st c.argv evs with
              | ok stK evsK effsK =>
                  simp only [hk] at h
                  obtain ⟨e0, hrec, _⟩ := cmds_prepend_ok _ _ _ _ _ _ _ _ h
                  exact ih _ _ _ _ _ _ _ _ _ _ _
                    (kill_preserves_wf st c.argv evs hwf _ _ _ hk) hrec
              | exited cc ee => simp only [hk, bi_result.to_cmds] at h; cases h
              | fatal cc ee => simp only [hk, bi_result.to_cmds] at h; cases h
              | blocked ee => simp only [hk, bi_result.to_cmds] at h; cases h
            · rw [if_neg h3] at h
              by_cases h4 : c.argv.getD 0 "" = "bg"
              · rw [if_pos h4] at h
                obtain ⟨e0, hrec, _⟩ := cmds_prepend_ok _ _ _ _ _ _ _ _ h
                exact ih _ _ _ _ _ _ _ _ _ _ _ (bg_preserves_wf st c.argv hwf) hrec
              · rw [if_neg h4] at h
                by_cases h5 : c.argv.getD 0 "" = "fg"
                · rw [if_pos h5] at h
                  cases hk : fg_builtin st c.argv evs with
                  | ok stK evsK effsK =>
                      simp only [hk] at h
                      obtain ⟨e0, hrec, _⟩ := cmds_prepend_ok _ _ _ _ _ _ _ _ h
                      exact ih _ _ _ _ _ _ _ _ _ _ _
                        (fg_preserves_wf st c.argv evs hwf _ _ _ hk) hrec
                  | exited cc ee => simp only [hk, bi_result.to_cmds] at h; cases h
                  | fatal cc ee => simp only [hk, bi_result.to_cmds] at h; cases h
                  | blocked ee => simp only [hk, bi_result.to_cmds] at h; cases h
                · rw [if_neg h5] at h
                  by_cases h6 : c.argv.getD 0 "" = "stop"
                  · rw [if_pos h6] at h
                    obtain ⟨e0, hrec, _⟩ := cmds_prepend_ok _ _ _ _ _ _ _ _ h
                    rw [stop_state] at hrec
                    exact ih _ _ _ _ _ _ _ _ _ _ _ hwf hrec
                  · rw [if_neg h6] at h
                    by_cases h7 : c.argv.getD 0 "" = "history"
                    · rw [if_pos h7] at h
                      exact ih _ _ _ _ _ _ _ _ _ _ _ hwf h
                    · rw [if_neg h7] at h
                      by_cases h8 : c.argv.getD 0 "" = "cd"
                      · rw [if_pos h8] at h
                        exact ih _ _ _ _ _ _ _ _ _ _ _ hwf h
                      · rw [if_neg h8] at h
                        cases hsp : envA.spawn_res envA.spawn_ix with
                        | fail rc =>
                            simp only [hsp] at h
                            by_cases hrc : rc = ENOENT
                            · rw [if_pos hrc] at h
                              obtain ⟨e0, hrec, _⟩ := cmds_prepend_ok _ _ _ _ _ _ _ _ h
                              exact ih _ _ _ _ _ _ _ _ _ _ _ hwf hrec
                            · rw [if_neg hrc] at h
                              have hto := to_cmds_ok _ _ _ _ _ _ _ _ _ _ h
                              obtain ⟨e0, hex, _⟩ := bi_prepend_ok _ _ _ _ _ hto
                              exact absurd hex (exit_go_no_ok _ _ _ _ _ _)
                        | ok pid =>
                            simp only [hsp] at h
                            cases jo with
                            | none =>
                                cases ha : add_job st pl with
                                | none => simp only [ha] at h; cases h
                                | some pr =>
                                    obtain ⟨stN, j0⟩ := pr
                                    simp only [ha] at h
                                    obtain ⟨e0, hrec, _⟩ :=
                                      cmds_prepend_ok _ _ _ _ _ _ _ _ h
                                    refine ih _ _ _ _ _ _ _ _ _ _ _ ?_ hrec
                                    exact spawn_new_wf st pl stN j0 _ hwf ha rfl rfl
                            | some tjid =>
                                cases hl : st.jid2job tjid with
                                | none =>
                                    simp only [hl] at h
                                    exact ih _ _ _ _ _ _ _ _ _ _ _ hwf h
                                | some j =>
                                    simp only [hl] at h
                                    exact ih _ _ _ _ _ _ _ _ _ _ _
                                      (spawn_append_wf st tjid j _ hwf hl) h

/-- Inversion of `pl_result.prepend` at an `ok` value. -/
theorem pl_prepend_ok (e : List effect) (r : pl_result) (st : shell_state)
    (env : spawn_env) (evs : List wait_result) (effs : List effect)
    (h : r.prepend e = pl_result.ok st env evs effs) :
    ∃ effs0, r = pl_result.ok st env evs effs0 ∧ effs = e ++ effs0 := by
  cases r with
  | ok a b c d =>
      simp only [pl_result.prepend] at h
      cases h
      exact ⟨d, rfl, rfl⟩
  | exited c e2 => simp [pl_result.prepend] at h
  | fatal c e2 => simp [pl_result.prepend] at h
  | blocked e2 => simp [pl_result.prepend] at h

/-- One whole pipeline preserves registry well-formedness. -/
theorem run_pipeline_preserves_wf (st : shell_state) (pl : ast_pipeline) (env : spawn_env)
    (evs : List wait_result) (hwf : jobs_wf st) (st1 : shell_state) (env1 : spawn_env)
    (evs1 : List wait_result) (effs : List effect)
    (h : run_pipeline st pl env evs = pl_result.ok st1 env1 evs1 effs) : jobs_wf st1 := by
  unfold run_pipeline at h
  cases hc : run_commands pl pl.commands st none 0 env evs with
  | ok stA joA pgA envA evsA effsA =>
      simp only [hc] at h
      have hwfA := run_commands_preserves_wf pl pl.commands st none 0 env evs
        _ _ _ _ _ _ hwf hc
      cases joA with
      | none =>
          rw [finish_pipeline_none] at h
          have hst : stA = st1 := by injection h
          rw [← hst]
          exact hwfA
      | some jid =>
          rw [finish_pipeline_some] at h
          by_cases hbg : pl.bg_job = true
          · rw [if_pos hbg] at h
            cases hl : stA.jid2job jid with
            | some j =>
                simp only [hl] at h
                have hst : stA = st1 := by injection h
                rw [← hst]
                exact hwfA
            | none =>
                simp only [hl] at h
                have hst : stA = st1 := by injection h
                rw [← hst]
                exact hwfA
          · rw [if_neg hbg] at h
            cases hw : wait_for_job jid { stA with term_owner := pgA } evsA with
            | ok stB effsB evsB =>
                simp only [hw] at h
                have hwfB := wait_preserves_wf jid evsA { stA with term_owner := pgA }
                  (fun k jk hk => hwfA k jk hk) _ _ _ hw
                cases hl : stB.jid2job jid with
                | some j3 =>
                    simp only [hl] at h
                    by_cases ht : j3.status = job_status.TERMINATED
                    · rw [if_pos ht] at h
                      have hst : delete_job (list_remove stB jid) jid = st1 := by
                        injection h
                      rw [← hst]
                      exact remove_delete_wf _ _ hwfB
                    · rw [if_neg ht] at h
                      have hst : stB = st1 := by injection h
                      rw [← hst]
                      exact hwfB
                | none =>
                    simp only [hl] at h
                    have hst : stB = st1 := by injection h
                    rw [← hst]
                    exact hwfB
            | fatal c e => simp only [hw] at h; cases h
            | blocked e => simp only [hw] at h; cases h
  | exited c e => simp only [hc] at h; cases h
  | fatal c e => simp only [hc] at h; cases h
  | blocked e => simp only [hc] at h; cases h

/-- The pipeline loop preserves registry well-formedness. -/
theorem run_pipelines_preserves_wf : ∀ (pls : List ast_pipeline) (st : shell_state)
    (env : spawn_env) (evs : List wait_result) (st1 : shell_state) (env1 : spawn_env)
    (evs1 : List wait_result) (effs : List effect),
    jobs_wf st → run_pipelines pls st env evs = pl_result.ok st1 env1 evs1 effs →
    jobs_wf st1 := by
  intro pls
  induction pls with
  | nil =>
      intro st env evs st1 env1 evs1 effs hwf h
      unfold run_pipelines at h
      have hst : st = st1 := by injection h
      rw [← hst]
      exact hwf
  | cons pl rest ih =>
      intro st env evs st1 env1 evs1 effs hwf h
      unfold run_pipelines at h
      cases hp : run_pipeline st pl env evs with
      | ok stA envA evsA effsA =>
          simp only [hp] at h
          obtain ⟨e0, hrec, _⟩ := pl_prepend_ok _ _ _ _ _ _ h
          exact ih _ _ _ _ _ _ _
            (run_pipeline_preserves_wf st pl env evs hwf _ _ _ _ hp) hrec
      | exited c e => simp only [hp] at h; cases h
      | fatal c e => simp only [hp] at h; cases h
      | blocked e => simp only [hp] at h; cases h

/-- The SIGCHLD drain loop preserves registry well-formedness. -/
theorem sigchld_preserves_wf : ∀ (evs : List wait_result) (st : shell_state),
    jobs_wf st → ∀ st1 effs, sigchld_handler st evs = reap_result.ok st1 effs →
    jobs_wf st1 := by
  intro evs
  induction evs with
  | nil =>
      intro st hwf st1 effs h
      unfold sigchld_handler at h
      have hst : st = st1 := by injection h
      rw [← hst]
      exact hwf
  | cons ev rest ih =>
      intro st hwf st1 effs h
      cases ev with
      | nochild =>
          unfold sigchld_handler at h
          have hst : st = st1 := by injection h
          rw [← hst]
          exact hwf
      | child pid ws =>
          unfold sigchld_handler at h
          cases hh : handle_child_status st pid ws with
          | fatal c e => simp only [hh] at h; cases h
          | ok stA effsA =>
              simp only [hh] at h
              cases hr : sigchld_handler stA rest with
              | ok stB effsB =>
                  simp only [hr] at h
                  have hst : stB = st1 := by injection h
                  rw [← hst]
                  exact ih stA (hcs_preserves_wf st pid ws stA effsA hwf hh) _ _ hr
              | fatal c e => simp only [hr] at h; cases h

/-- One `shell_loop` iteration preserves registry well-formedness. -/
theorem shell_iteration_preserves_wf (st : shell_state) (inp : shell_input)
    (env : spawn_env) (evs : List wait_result) (hwf : jobs_wf st) (st1 : shell_state)
    (env1 : spawn_env) (evs1 : List wait_result) (effs : List effect)
    (h : shell_iteration st inp env evs = pl_result.ok st1 env1 evs1 effs) :
    jobs_wf st1 := by
  cases inp with
  | eof => rw [shell_iteration_eof] at h; cases h
  | cmdline pipes =>
      rw [shell_iteration_cmdline] at h
      by_cases hemp : pipes.isEmpty = true
      · rw [if_pos hemp] at h
        have hst : st = st1 := by injection h
        rw [← hst]
        exact hwf
      · rw [if_neg hemp] at h
        cases hr : run_pipelines pipes st env evs with
        | ok stB envB evsB effsB =>
            simp only [hr] at h
            have hwfB := run_pipelines_preserves_wf pipes st env evs _ _ _ _ hwf hr
            have hst : ({ stB with term_owner := stB.shell_pgrp } : shell_state) = st1 := by
              injection h
            rw [← hst]
            exact fun k jk hk => hwfB k jk hk
        | exited c e => simp only [hr] at h; cases h
        | fatal c e => simp only [hr] at h; cases h
        | blocked e => simp only [hr] at h; cases h

/-- Every top-level operation preserves registry well-formedness. -/
theorem op_step_preserves_wf (st : shell_state) (op : shell_op) (st1 : shell_state)
    (effs : List effect) (hwf : jobs_wf st) (h : op_step st op = op_result.ok st1 effs) :
    jobs_wf st1 := by
  cases op with
  | line pipes env evs =>
      unfold op_step at h
      cases hi : shell_iteration st (shell_input.cmdline pipes) env evs with
      | ok stA envA evsA effsA =>
          simp only [hi] at h
          have hst : stA = st1 := by injection h
          rw [← hst]
          exact shell_iteration_preserves_wf st _ env evs hwf _ _ _ _ hi
      | exited c e => simp only [hi] at h; cases h
      | fatal c e => simp only [hi] at h; cases h
      | blocked e => simp only [hi] at h; cases h
  | async evs =>
      unfold op_step at h
      cases hr : sigchld_handler st evs with
      | ok stA effsA =>
          simp only [hr] at h
          have hst : stA = st1 := by injection h
          rw [← hst]
          exact sigchld_preserves_wf evs st hwf _ _ hr
      | fatal c e => simp only [hr] at h; cases h

/-- Claim C7: the registry starts well-formed (every job's live-process
count equals the length of its live-process sequence), every top-level
operation (a whole command line, or an asynchronous SIGCHLD drain) that
returns to an observable point preserves it, and when the reaper removes a
terminated process it removes exactly the procs entry at the found index —
`List.eraseIdx`, an order-preserving removal (the remaining sequence is a
sublist of the original). -/
theorem live_count_matches_and_order (st : shell_state) :
    (∀ p, jobs_wf (initial_state p)) ∧
    (∀ (op : shell_op) (st1 : shell_state) (effs : List effect),
       jobs_wf st → op_step st op = op_result.ok st1 effs → jobs_wf st1) ∧
    (∀ (jid i : Nat) (ws : wstatus) (j : job), st.jid2job jid = some j → j.jid = jid →
       (handle_terminated_child st jid i ws).1.jid2job jid = none ∨
       ∃ j2, (handle_terminated_child st jid i ws).1.jid2job jid = some j2 ∧
         j2.procs = j.procs.eraseIdx i ∧ j2.procs.Sublist j.procs) := by
  refine ⟨?_, ?_, ?_⟩
  · intro p k jk hk
    exact Option.noConfusion hk
  · intro op st1 effs hwf h
    exact op_step_preserves_wf st op st1 effs hwf h
  · intro jid i ws j hj hjid
    unfold handle_terminated_child
    simp only [hj]
    split
    · split
      · right
        refine
          ⟨{ j with
               procs := j.procs.eraseIdx i,
               num_processes_alive := j.num_processes_alive - 1,
               status := job_status.TERMINATED },
           ?_, rfl, List.eraseIdx_sublist j.procs i⟩
        rw [update_job_lookup]
        rw [if_pos (show jid = job.jid _ from hjid.symm)]
      · left
        rw [remove_delete_lookup]
        rw [if_pos rfl]
    · right
      refine
        ⟨{ j with
             procs := j.procs.eraseIdx i,
             num_processes_alive := j.num_processes_alive - 1 },
         ?_, rfl, List.eraseIdx_sublist j.procs i⟩
      rw [update_job_lookup]
      rw [if_pos (show jid = job.jid _ from hjid.symm)]

/-- Witness for claim C7: the preservation part applied to the initial
state and an empty SIGCHLD drain. -/
theorem live_count_matches_and_order_witness : jobs_wf (initial_state 1) :=
  (live_count_matches_and_order (initial_state 1)).2.1 (shell_op.async [])
    (initial_state 1) [] (fun _ _ hk => Option.noConfusion hk) rfl

/-- A boundary-invariant registry satisfies the mid-spawn invariant before
any job has been created. -/
theorem binv_spawn_mid (bg : Bool) (st : shell_state) (hb : boundary_inv st) :
    spawn_mid bg none st := by
  intro jid j hj
  obtain ⟨h1, h2, h3, h4, h5⟩ := hb jid j hj
  exact ⟨h1, h2, fun _ => ⟨h3, h4, h5⟩, fun hc => Option.noConfusion hc⟩

/-- With no pipeline job created, the mid-spawn invariant collapses back
to the boundary invariant. -/
theorem spawn_mid_none_binv (bg : Bool) (st : shell_state)
    (hm : spawn_mid bg none st) : boundary_inv st := by
  intro jid j hj
  obtain ⟨h1, h2, h3, _⟩ := hm jid j hj
  obtain ⟨h4, h5, h6⟩ := h3 (fun hc => Option.noConfusion hc)
  exact ⟨h1, h2, h4, h5, h6⟩

/-- A finished background pipeline restores the boundary invariant. -/
theorem spawn_mid_bg_binv (t : Nat) (st : shell_state)
    (hm : spawn_mid true (some t) st) : boundary_inv st := by
  intro jid j hj
  obtain ⟨h1, h2, h3, h4⟩ := hm jid j hj
  by_cases he : t = jid
  · subst he
    obtain ⟨hp, hs⟩ := h4 rfl
    refine ⟨h1, h2, hp, ?_, ?_⟩ <;> rw [hs] <;> simp
  · obtain ⟨h5, h6, h7⟩ := h3 (fun hc => he (Option.some.inj hc))
    exact ⟨h1, h2, h5, h6, h7⟩

/-- A spawned foreground pipeline job satisfies the mid-operation
invariant used by the subsequent wait. -/
theorem spawn_mid_fg_mid (t : Nat) (st : shell_state)
    (hm : spawn_mid false (some t) st) : mid_inv st t := by
  intro jid j hj
  obtain ⟨h1, h2, h3, h4⟩ := hm jid j hj
  refine ⟨h1, h2, ?_, ?_⟩
  · intro hne
    exact h3 (fun hc => hne (Option.some.inj hc).symm)
  · intro he h0
    obtain ⟨hp, _⟩ := h4 (by rw [he])
    exact absurd h0 (Nat.pos_iff_ne_zero.mp hp)

/-- Registering the first process of a pipeline establishes the
mid-spawn invariant for the new job. -/
theorem spawn_new_mid (bg : Bool) (st : shell_state) (pl : ast_pipeline)
    (stN : shell_state) (j0 : job) (p : process_t) (pg : Nat)
    (hm : spawn_mid bg none st) (ha : add_job st pl = some (stN, j0)) :
    spawn_mid bg (some j0.jid)
      (update_job stN
        { j0 with
            pgid := pg,
            status := if bg then job_status.BACKGROUND else job_status.FOREGROUND,
            procs := [p],
            num_processes_alive := 1 }) := by
  have hlk := (add_job_lookup st pl stN j0 ha).1
  intro k jk hk
  rcases update_job_cases _ _ _ _ hk with ⟨hkj, hjk⟩ | ⟨hne, hold⟩
  · subst hjk
    refine ⟨hkj.symm, rfl, ?_, ?_⟩
    · intro hcontra
      exact absurd (congrArg some hkj.symm) hcontra
    · intro _
      exact ⟨Nat.one_pos, rfl⟩
  · rw [hlk k] at hold
    by_cases hki : k = j0.jid
    · exact absurd hki hne
    · rw [if_neg hki] at hold
      obtain ⟨h1, h2, h3, _⟩ := hm k jk hold
      obtain ⟨h4, h5, h6⟩ := h3 (fun hc => Option.noConfusion hc)
      refine ⟨h1, h2, fun _ => ⟨h4, h5, h6⟩, ?_⟩
      intro hc
      exact absurd (Option.some.inj hc).symm hki

/-- Appending a process to the pipeline's job preserves the mid-spawn
invariant. -/
theorem spawn_append_mid (bg : Bool) (st : shell_state) (tjid : Nat) (j : job)
    (p : process_t) (hm : spawn_mid bg (some tjid) st)
    (hj : st.jid2job tjid = some j) :
    spawn_mid bg (some tjid)
      (update_job st
        { j with
            procs := j.procs ++ [p],
            num_processes_alive := j.num_processes_alive + 1 }) := by
  intro k jk hk
  rcases update_job_cases _ _ _ _ hk with ⟨hkj, hjk⟩ | ⟨hne, hold⟩
  · subst hjk
    obtain ⟨h1, h2, _, h4⟩ := hm tjid j hj
    have hkt : k = tjid := by rw [hkj]; exact h1
    refine ⟨?_, ?_, ?_, ?_⟩
    · show j.jid = k
      rw [hkt]; exact h1
    · show j.num_processes_alive + 1 = (j.procs ++ [p]).length
      rw [List.length_append, h2]
      rfl
    · intro hcontra
      exact absurd (by rw [hkt] : (some tjid : Option Nat) = some k) hcontra
    · intro _
      obtain ⟨_, hs⟩ := h4 rfl
      exact ⟨Nat.succ_pos _, hs⟩
  · obtain ⟨h1, h2, h3, h4⟩ := hm k jk hold
    refine ⟨h1, h2, h3, ?_⟩
    intro hc
    have hkt := Option.some.inj hc
    have hj1 := (hm tjid j hj).1
    exact absurd (hkt.symm.trans hj1.symm) hne

/-- The command loop of a pipeline that contains no status-mutating
job-control builtin (`kill`/`bg`/`fg`) preserves the mid-spawn
invariant. -/
theorem run_commands_benign (pl : ast_pipeline) :
    ∀ (cmds : List ast_command), (∀ c ∈ cmds, is_jc_builtin c = false) →
    ∀ (st : shell_state) (jo : Option Nat) (pg : Nat) (env : spawn_env)
      (evs : List wait_result) (st1 : shell_state) (jo1 : Option Nat) (pg1 : Nat)
      (env1 : spawn_env) (evs1 : List wait_result) (effs : List effect),
      spawn_mid pl.bg_job jo st →
      run_commands pl cmds st jo pg env evs = cmds_result.ok st1 jo1 pg1 env1 evs1 effs →
      spawn_mid pl.bg_job jo1 st1 := by
  intro cmds
  induction cmds with
  | nil =>
      intro _ st jo pg env evs st1 jo1 pg1 env1 evs1 effs hm h
      unfold run_commands at h
      cases h
      exact hm
  | cons c rest ih =>
      intro hben st jo pg env evs st1 jo1 pg1 env1 evs1 effs hm h
      have hjc := hben c (List.mem_cons_self c rest)
      unfold is_jc_builtin at hjc
      rw [decide_eq_false_iff_not] at hjc
      push_neg at hjc
      obtain ⟨hk1, hk2, hk3⟩ := hjc
      have hrest : ∀ c2 ∈ rest, is_jc_builtin c2 = false :=
        fun c2 h2 => hben c2 (List.mem_cons_of_mem c h2)
      unfold run_commands at h
      by_cases hpf : rest.isEmpty = false ∧ env.pipe_ok env.pipe_ix = false
      · rw [if_pos hpf] at h
        have hto := to_cmds_ok _ _ _ _ _ _ _ _ _ _ h
        obtain ⟨e0, hex, _⟩ := bi_prepend_ok _ _ _ _ _ hto
        exact absurd hex (exit_go_no_ok _ _ _ _ _ _)
      · rw [if_neg hpf] at h
        generalize hE : (if rest.isEmpty = true then env
            else { env with pipe_ix := env.pipe_ix + 1 } : spawn_env) = envA at h
        by_cases h1 : c.argv.getD 0 "" = "exit"
        · rw [if_pos h1] at h
          have hto := to_cmds_ok _ _ _ _ _ _ _ _ _ _ h
          exact absurd hto (exit_go_no_ok _ _ _ _ _ _)
        · rw [if_neg h1] at h
          by_cases h2 : c.argv.getD 0 "" = "jobs"
          · rw [if_pos h2] at h
            obtain ⟨e0, hrec, _⟩ := cmds_prepend_ok _ _ _ _ _ _ _ _ h
            exact ih hrest _ _ _ _ _ _ _ _ _ _ _ hm hrec
          · rw [if_neg h2] at h
            by_cases h3 : c.argv.getD 0 "" = "kill"
            · exact absurd h3 hk1
            · rw [if_neg h3] at h
              by_cases h4 : c.argv.getD 0 "" = "bg"
              · exact absurd h4 hk2
              · rw [if_neg h4] at h
                by_cases h5 : c.argv.getD 0 "" = "fg"
                · exact absurd h5 hk3
                · rw [if_neg h5] at h
                  by_cases h6 : c.argv.getD 0 "" = "stop"
                  · rw [if_pos h6] at h
                    obtain ⟨e0, hrec, _⟩ := cmds_prepend_ok _ _ _ _ _ _ _ _ h
                    rw [stop_state] at hrec
                    exact ih hrest _ _ _ _ _ _ _ _ _ _ _ hm hrec
                  · rw [if_neg h6] at h
                    by_cases h7 : c.argv.getD 0 "" = "history"
                    · rw [if_pos h7] at h
                      exact ih hrest _ _ _ _ _ _ _ _ _ _ _ hm h
                    · rw [if_neg h7] at h
                      by_cases h8 : c.argv.getD 0 "" = "cd"
                      · rw [if_pos h8] at h
                        exact ih hrest _ _ _ _ _ _ _ _ _ _ _ hm h
                      · rw [if_neg h8] at h
                        cases hsp : envA.spawn_res envA.spawn_ix with
                        | fail rc =>
                            simp only [hsp] at h
                            by_cases hrc : rc = ENOENT
                            · rw [if_pos hrc] at h
                              obtain ⟨e0, hrec, _⟩ := cmds_prepend_ok _ _ _ _ _ _ _ _ h
                              exact ih hrest _ _ _ _ _ _ _ _ _ _ _ hm hrec
                            · rw [if_neg hrc] at h
                              have hto := to_cmds_ok _ _ _ _ _ _ _ _ _ _ h
                              obtain ⟨e0, hex, _⟩ := bi_prepend_ok _ _ _ _ _ hto
                              exact absurd hex (exit_go_no_ok _ _ _ _ _ _)
                        | ok pid =>
                            simp only [hsp] at h
                            cases jo with
                            | none =>
                                cases ha : add_job st pl with
                                | none => simp only [ha] at h; cases h
                                | some pr =>
                                    obtain ⟨stN, j0⟩ := pr
                                    simp only [ha] at h
                                    obtain ⟨e0, hrec, _⟩ :=
                                      cmds_prepend_ok _ _ _ _ _ _ _ _ h
                                    refine ih hrest _ _ _ _ _ _ _ _ _ _ _ ?_ hrec
                                    exact spawn_new_mid pl.bg_job st pl stN j0 _ _ hm ha
                            | some tjid =>
                                cases hl : st.jid2job tjid with
                                | none =>
                                    simp only [hl] at h
                                    exact ih hrest _ _ _ _ _ _ _ _ _ _ _ hm h
                                | some j =>
                                    simp only [hl] at h
                                    refine ih hrest _ _ _ _ _ _ _ _ _ _ _ ?_ h
                                    exact spawn_append_mid pl.bg_job st tjid j _ hm hl

/-- The pipeline postlude restores the boundary invariant from the
mid-spawn invariant. -/
theorem finish_pipeline_preserves_binv (pl : ast_pipeline) (stA : shell_state)
    (joA : Option Nat) (pgA : Nat) (envA : spawn_env) (evsA : List wait_result)
    (effsA : List effect) (hm : spawn_mid pl.bg_job joA stA) (st1 : shell_state)
    (env1 : spawn_env) (evs1 : List wait_result) (effs : List effect)
    (h : finish_pipeline pl stA joA pgA envA evsA effsA = pl_result.ok st1 env1 evs1 effs) :
    boundary_inv st1 := by
  cases joA with
  | none =>
      rw [finish_pipeline_none] at h
      have hst : stA = st1 := by injection h
      rw [← hst]
      exact spawn_mid_none_binv _ _ hm
  | some jid =>
      rw [finish_pipeline_some] at h
      by_cases hbg : pl.bg_job = true
      · rw [if_pos hbg] at h
        rw [hbg] at hm
        cases hl : stA.jid2job jid with
        | some j =>
            simp only [hl] at h
            have hst : stA = st1 := by injection h
            rw [← hst]
            exact spawn_mid_bg_binv jid stA hm
        | none =>
            simp only [hl] at h
            have hst : stA = st1 := by injection h
            rw [← hst]
            exact spawn_mid_bg_binv jid stA hm
      · rw [if_neg hbg] at h
        rw [Bool.not_eq_true] at hbg
        rw [hbg] at hm
        have hmid : mid_inv { stA with term_owner := pgA } jid :=
          fun k jk hk => spawn_mid_fg_mid jid stA hm k jk hk
        cases hw : wait_for_job jid { stA with term_owner := pgA } evsA with
        | ok stB effsB evsB =>
            simp only [hw] at h
            obtain ⟨hmidB, hres⟩ := wait_preserves_mid jid evsA _ hmid _ _ _ hw
            cases hl : stB.jid2job jid with
            | some j3 =>
                simp only [hl] at h
                by_cases ht : j3.status = job_status.TERMINATED
                · rw [if_pos ht] at h
                  have hst : delete_job (list_remove stB jid) jid = st1 := by injection h
                  rw [← hst]
                  exact mid_del_binv stB jid hmidB
                · rw [if_neg ht] at h
                  have hst : stB = st1 := by injection h
                  rw [← hst]
                  exact mid_resolved_binv stB jid hmidB j3 hl (hres j3 hl) ht
            | none =>
                simp only [hl] at h
                have hst : stB = st1 := by injection h
                rw [← hst]
                exact mid_unmapped_binv stB jid hmidB hl
        | fatal c e => simp only [hw] at h; cases h
        | blocked e => simp only [hw] at h; cases h

/-- One restricted pipeline preserves the boundary invariant. -/
theorem run_pipeline_preserves_binv (st : shell_state) (pl : ast_pipeline)
    (env : spawn_env) (evs : List wait_result) (hb : boundary_inv st)
    (hr : restricted_pl pl) (st1 : shell_state) (env1 : spawn_env)
    (evs1 : List wait_result) (effs : List effect)
    (h : run_pipeline st pl env evs = pl_result.ok st1 env1 evs1 effs) :
    boundary_inv st1 := by
  by_cases hall : ∀ c ∈ pl.commands, is_jc_builtin c = false
  · unfold run_pipeline at h
    cases hc : run_commands pl pl.commands st none 0 env evs with
    | ok stA joA pgA envA evsA effsA =>
        simp only [hc] at h
        exact finish_pipeline_preserves_binv pl stA joA pgA envA evsA effsA
          (run_commands_benign pl pl.commands hall st none 0 env evs _ _ _ _ _ _
            (binv_spawn_mid pl.bg_job st hb) hc) st1 env1 evs1 effs h
    | exited c e => simp only [hc] at h; cases h
    | fatal c e => simp only [hc] at h; cases h
    | blocked e => simp only [hc] at h; cases h
  · have hlen : pl.commands.length = 1 := by
      rcases hr with hl | hnone
      · exact hl
      · exact absurd hnone hall
    obtain ⟨c, hc1⟩ : ∃ c, pl.commands = [c] := by
      cases hcm : pl.commands with
      | nil => rw [hcm] at hlen; cases hlen
      | cons a t =>
          rw [hcm] at hlen
          simp only [List.length_cons] at hlen
          have ht0 : t.length = 0 := by omega
          exact ⟨a, by rw [List.eq_nil_of_length_eq_zero ht0]⟩
    have hjc : is_jc_builtin c = true := by
      by_contra hcon
      refine hall ?_
      intro c2 hc2
      rw [hc1] at hc2
      have : c2 = c := List.mem_singleton.mp hc2
      subst this
      exact Bool.eq_false_iff.mpr hcon
    unfold is_jc_builtin at hjc
    rw [decide_eq_true_eq] at hjc
    unfold run_pipeline at h
    cases hcr : run_commands pl pl.commands st none 0 env evs with
    | ok stA joA pgA envA evsA effsA =>
        simp only [hcr] at h
        rw [hc1] at hcr
        unfold run_commands at hcr
        rw [if_neg (by simp)] at hcr
        have hne : c.argv.getD 0 "" ≠ "exit" ∧ c.argv.getD 0 "" ≠ "jobs" := by
          rcases hjc with hk | hk | hk <;> rw [hk] <;> exact ⟨by decide, by decide⟩
        rw [if_neg hne.1, if_neg hne.2] at hcr
        rcases hjc with hk | hk | hk
        · rw [if_pos hk] at hcr
          cases hkb : kill_builtin st c.argv evs with
          | ok stK evsK effsK =>
              simp only [hkb] at hcr
              obtain ⟨e0, hrec, _⟩ := cmds_prepend_ok _ _ _ _ _ _ _ _ hcr
              unfold run_commands at hrec
              injection hrec with e1 e2 e3 e4 e5 e6
              subst e1
              subst e2
              exact finish_pipeline_preserves_binv pl _ _ pgA envA evsA effsA
                (binv_spawn_mid pl.bg_job _
                  (kill_preserves_binv st c.argv evs hb _ _ _ hkb)) st1 env1 evs1 effs h
          | exited cc ee => simp only [hkb, bi_result.to_cmds] at hcr; cases hcr
          | fatal cc ee => simp only [hkb, bi_result.to_cmds] at hcr; cases hcr
          | blocked ee => simp only [hkb, bi_result.to_cmds] at hcr; cases hcr
        · rw [if_neg (by rw [hk]; decide), if_pos hk] at hcr
          obtain ⟨e0, hrec, _⟩ := cmds_prepend_ok _ _ _ _ _ _ _ _ hcr
          unfold run_commands at hrec
          injection hrec with e1 e2 e3 e4 e5 e6
          subst e1
          subst e2
          exact finish_pipeline_preserves_binv pl _ _ pgA envA evsA effsA
            (binv_spawn_mid pl.bg_job _ (bg_preserves_binv st c.argv hb))
            st1 env1 evs1 effs h
        · rw [if_neg (by rw [hk]; decide), if_neg (by rw [hk]; decide),
              if_pos hk] at hcr
          cases hkb : fg_builtin st c.argv evs with
          | ok stK evsK effsK =>
              simp only [hkb] at hcr
              obtain ⟨e0, hrec, _⟩ := cmds_prepend_ok _ _ _ _ _ _ _ _ hcr
              unfold run_commands at hrec
              injection hrec with e1 e2 e3 e4 e5 e6
              subst e1
              subst e2
              exact finish_pipeline_preserves_binv pl _ _ pgA envA evsA effsA
                (binv_spawn_mid pl.bg_job _
                  (fg_preserves_binv st c.argv evs hb _ _ _ hkb)) st1 env1 evs1 effs h
          | exited cc ee => simp only [hkb, bi_result.to_cmds] at hcr; cases hcr
          | fatal cc ee => simp only [hkb, bi_result.to_cmds] at hcr; cases hcr
          | blocked ee => simp only [hkb, bi_result.to_cmds] at hcr; cases hcr
    | exited c e => simp only [hcr] at h; cases h
    | fatal c e => simp only [hcr] at h; cases h
    | blocked e => simp only [hcr] at h; cases h

/-- The pipeline loop over restricted pipelines preserves the boundary
invariant. -/
theorem run_pipelines_preserves_binv : ∀ (pls : List ast_pipeline) (st : shell_state)
    (env : spawn_env) (evs : List wait_result) (st1 : shell_state) (env1 : spawn_env)
    (evs1 : List wait_result) (effs : List effect),
    (∀ pl ∈ pls, restricted_pl pl) → boundary_inv st →
    run_pipelines pls st env evs = pl_result.ok st1 env1 evs1 effs →
    boundary_inv st1 := by
  intro pls
  induction pls with
  | nil =>
      intro st env evs st1 env1 evs1 effs _ hb h
      unfold run_pipelines at h
      have hst : st = st1 := by injection h
      rw [← hst]
      exact hb
  | cons pl rest ih =>
      intro st env evs st1 env1 evs1 effs hres hb h
      unfold run_pipelines at h
      cases hp : run_pipeline st pl env evs with
      | ok stA envA evsA effsA =>
          simp only [hp] at h
          obtain ⟨e0, hrec, _⟩ := pl_prepend_ok _ _ _ _ _ _ h
          exact ih _ _ _ _ _ _ _ (fun p hp2 => hres p (List.mem_cons_of_mem pl hp2))
            (run_pipeline_preserves_binv st pl env evs hb
              (hres pl (List.mem_cons_self pl rest)) _ _ _ _ hp) hrec
      | exited c e => simp only [hp] at h; cases h
      | fatal c e => simp only [hp] at h; cases h
      | blocked e => simp only [hp] at h; cases h

/-- The boundary invariant follows from the mid-operation invariant at
every distinguished slot. -/
theorem mid_all_binv (st : shell_state) (h : ∀ t, mid_inv st t) : boundary_inv st := by
  intro jid j hj
  obtain ⟨h1, h2, h3, _⟩ := h (jid + 1) jid j hj
  obtain ⟨h4, h5, h6⟩ := h3 (by omega)
  exact ⟨h1, h2, h4, h5, h6⟩

/-- The SIGCHLD drain loop preserves the mid-operation invariant. -/
theorem sigchld_preserves_mid (t : Nat) : ∀ (evs : List wait_result) (st : shell_state),
    mid_inv st t → ∀ st1 effs, sigchld_handler st evs = reap_result.ok st1 effs →
    mid_inv st1 t := by
  intro evs
  induction evs with
  | nil =>
      intro st hm st1 effs h
      unfold sigchld_handler at h
      have hst : st = st1 := by injection h
      rw [← hst]
      exact hm
  | cons ev rest ih =>
      intro st hm st1 effs h
      cases ev with
      | nochild =>
          unfold sigchld_handler at h
          have hst : st = st1 := by injection h
          rw [← hst]
          exact hm
      | child pid ws =>
          unfold sigchld_handler at h
          cases hh : handle_child_status st pid ws with
          | fatal c e => simp only [hh] at h; cases h
          | ok stA effsA =>
              simp only [hh] at h
              cases hr : sigchld_handler stA rest with
              | ok stB effsB =>
                  simp only [hr] at h
                  have hst : stB = st1 := by injection h
                  rw [← hst]
                  exact ih stA (hcs_preserves_mid t st pid ws stA effsA hm hh) _ _ hr
              | fatal c e => simp only [hr] at h; cases h

/-- The SIGCHLD drain loop preserves the boundary invariant. -/
theorem sigchld_preserves_binv (evs : List wait_result) (st : shell_state)
    (hb : boundary_inv st) (st1 : shell_state) (effs : List effect)
    (h : sigchld_handler st evs = reap_result.ok st1 effs) : boundary_inv st1 := by
  apply mid_all_binv
  intro t
  exact sigchld_preserves_mid t evs st (binv_to_mid st t hb) st1 effs h

/-- One restricted `shell_loop` iteration preserves the boundary
invariant. -/
theorem shell_iteration_preserves_binv (st : shell_state) (pipes : List ast_pipeline)
    (env : spawn_env) (evs : List wait_result) (hb : boundary_inv st)
    (hres : ∀ pl ∈ pipes, restricted_pl pl) (st1 : shell_state) (env1 : spawn_env)
    (evs1 : List wait_result) (effs : List effect)
    (h : shell_iteration st (shell_input.cmdline pipes) env evs =
      pl_result.ok st1 env1 evs1 effs) : boundary_inv st1 := by
  rw [shell_iteration_cmdline] at h
  by_cases hemp : pipes.isEmpty = true
  · rw [if_pos hemp] at h
    have hst : st = st1 := by injection h
    rw [← hst]
    exact hb
  · rw [if_neg hemp] at h
    cases hr : run_pipelines pipes st env evs with
    | ok stB envB evsB effsB =>
        simp only [hr] at h
        have hbB := run_pipelines_preserves_binv pipes st env evs _ _ _ _ hres hb hr
        have hst : ({ stB with term_owner := stB.shell_pgrp } : shell_state) = st1 := by
          injection h
        rw [← hst]
        exact fun k jk hk => hbB k jk hk
    | exited c e => simp only [hr] at h; cases h
    | fatal c e => simp only [hr] at h; cases h
    | blocked e => simp only [hr] at h; cases h

/-- The boundary invariant makes the claimed foreground/terminal invariant
hold (vacuously: no registered job is foreground at a boundary). -/
theorem binv_fg_inv (st : shell_state) (hb : boundary_inv st) : fg_terminal_inv st := by
  constructor
  · intro jid1 j1 jid2 j2 h1 _ hf1 _
    exact absurd hf1 (hb jid1 j1 h1).2.2.2.1
  · intro jid j hj hf
    exact absurd hf (hb jid j hj).2.2.2.1

/-- Claim C3 (amended): provided the job-control builtins `kill`, `bg` and
`fg` are only invoked as the sole command of their pipeline, at every
observable point between operations at most one registered job has
`FOREGROUND` status, and whenever one does the terminal's owning process
group equals that job's process group — both established through the
boundary invariant, which makes them hold vacuously and is preserved by
every restricted top-level operation. -/
theorem fg_invariant_restricted (st : shell_state) (op : shell_op) (st1 : shell_state)
    (effs : List effect) (hb : boundary_inv st) (hr : op_restricted op)
    (h : op_step st op = op_result.ok st1 effs) :
    fg_terminal_inv st ∧ fg_terminal_inv st1 ∧ boundary_inv st1 := by
  have hb1 : boundary_inv st1 := by
    cases op with
    | line pipes env evs =>
        unfold op_step at h
        cases hi : shell_iteration st (shell_input.cmdline pipes) env evs with
        | ok stA envA evsA effsA =>
            simp only [hi] at h
            have hst : stA = st1 := by injection h
            rw [← hst]
            exact shell_iteration_preserves_binv st pipes env evs hb hr _ _ _ _ hi
        | exited c e => simp only [hi] at h; cases h
        | fatal c e => simp only [hi] at h; cases h
        | blocked e => simp only [hi] at h; cases h
    | async evs =>
        unfold op_step at h
        cases hsc : sigchld_handler st evs with
        | ok stA effsA =>
            simp only [hsc] at h
            have hst : stA = st1 := by injection h
            rw [← hst]
            exact sigchld_preserves_binv evs st hb _ _ hsc
        | fatal c e => simp only [hsc] at h; cases h
  exact ⟨binv_fg_inv st hb, binv_fg_inv st1 hb1, hb1⟩

/-- Witness for the amended claim C3: the empty-registry initial state
through an empty SIGCHLD drain. -/
theorem fg_invariant_restricted_witness : fg_terminal_inv (initial_state 1) :=
  (fg_invariant_restricted (initial_state 1) (shell_op.async []) (initial_state 1) []
    (fun _ _ hk => Option.noConfusion hk) trivial rfl).1

/-- A pid located by the procs scan is among the scanned pids. -/
theorem find_proc_idx_mem (pid : Nat) : ∀ (l : List process_t) (i : Nat),
    find_proc_idx pid l = some i → pid ∈ l.map process_t.pid := by
  intro l
  induction l with
  | nil => intro i h; cases h
  | cons p rest ih =>
      intro i h
      unfold find_proc_idx at h
      split at h
      next hp => rw [List.map_cons, ← hp]; exact List.mem_cons_self _ _
      next hp =>
          cases hf : find_proc_idx pid rest with
          | none => rw [hf] at h; cases h
          | some k => exact List.mem_cons_of_mem _ (ih k hf)

/-- When a pid sits at the head of job `jid`'s live procs and no other
registered job holds it, the job-list scan locates exactly `(jid, 0)`. -/
theorem find_pid_go_head (st : shell_state) (jid : Nat) (j : job) (p : Nat)
    (hj : st.jid2job jid = some j)
    (hp : find_proc_idx p (j.procs.take j.num_processes_alive) = some 0)
    (hothers : ∀ jid2 j2, st.jid2job jid2 = some j2 → jid2 ≠ jid → p ∉ pids_of j2) :
    ∀ (l : List Nat), jid ∈ l → find_pid_go st p l = some (jid, 0) := by
  intro l
  induction l with
  | nil => intro h; cases h
  | cons a rest ih =>
      intro hmem
      by_cases ha : a = jid
      · subst ha
        unfold find_pid_go
        simp only [hj, hp]
      · have hmem2 : jid ∈ rest := by
          rcases List.mem_cons.mp hmem with he | hr
          · exact absurd he.symm ha
          · exact hr
        unfold find_pid_go
        cases hja : st.jid2job a with
        | none => simp only [hja]; exact ih hmem2
        | some j2 =>
            simp only [hja]
            cases hf : find_proc_idx p (j2.procs.take j2.num_processes_alive) with
            | some k =>
                exfalso
                have hpm : p ∈ pids_of j2 := find_proc_idx_mem p _ k hf
                exact hothers a j2 hja ha hpm
            | none => simp only [hf]; exact ih hmem2

/-- A wait on a slot whose job is not a live foreground job returns at
once, consuming nothing. -/
theorem wait_not_fg (jid : Nat) (st : shell_state) (j : job) (evs : List wait_result)
    (hj : st.jid2job jid = some j)
    (hn : ¬(j.status = job_status.FOREGROUND ∧ 0 < j.num_processes_alive)) :
    wait_for_job jid st evs = wait_outcome.ok st [] evs := by
  cases evs with
  | nil => rw [wait_for_job_nil]; simp only [hj]; rw [if_neg hn]
  | cons ev rest => rw [wait_for_job_cons]; simp only [hj]; rw [if_neg hn]

/-- Unfolding of one blocking-wait step on a reapable child. -/
theorem wait_for_job_child (jid : Nat) (st : shell_state) (pid : Nat) (ws : wstatus)
    (rest : List wait_result) (j : job) (hj : st.jid2job jid = some j)
    (hc : j.status = job_status.FOREGROUND ∧ 0 < j.num_processes_alive) :
    wait_for_job jid st (wait_result.child pid ws :: rest) =
      match handle_child_status st pid ws with
      | reap_result.ok st1 effs1 =>
          match wait_for_job jid st1 rest with
          | wait_outcome.ok st2 effs2 r => wait_outcome.ok st2 (effs1 ++ effs2) r
          | wait_outcome.fatal c effs2 => wait_outcome.fatal c (effs1 ++ effs2)
          | wait_outcome.blocked effs2 => wait_outcome.blocked (effs1 ++ effs2)
      | reap_result.fatal c effs1 => wait_outcome.fatal c effs1 := by
  rw [wait_for_job_cons]
  simp only [hj]
  rw [if_pos hc]

/-- The Status Reaper acting on the head process of a foreground job
killed by `SIGKILL`: erase the head procs entry, decrement the count, and
on the last process mark the job `TERMINATED` (a signal exit never
re-samples the terminal state). -/
theorem handle_terminated_kill (st : shell_state) (jid : Nat) (j : job)
    (p : process_t) (rest : List process_t) (hj : st.jid2job jid = some j)
    (hfg : j.status = job_status.FOREGROUND)
    (hprocs : j.procs = p :: rest)
    (hcount : j.num_processes_alive = (p :: rest).length) :
    handle_terminated_child st jid 0 (wstatus.signaled SIGKILL) =
      (update_job st (if rest.length = 0 then killed_job j else with_procs j rest),
       [effect.msg (strsignal SIGKILL ++ "\n")]) := by
  unfold handle_terminated_child
  simp only [hj, hprocs, hcount, List.eraseIdx_cons_zero, List.length_cons,
    Nat.add_sub_cancel]
  by_cases hr : rest.length = 0
  · have hrnil : rest = [] := List.length_eq_zero.mp hr
    subst hrnil
    rw [if_pos hr, if_pos hr, if_pos hfg]
    have hwex : ¬(WIFEXITED (wstatus.signaled SIGKILL) = true ∧
        WEXITSTATUS (wstatus.signaled SIGKILL) = 0) := by
      intro hc
      exact Bool.noConfusion hc.1
    rw [if_neg hwex]
    simp only [List.append_nil]
    rfl
  · rw [if_neg hr, if_neg hr]
    rfl

/-- `handle_child_status` on a pid found at the head of its job's procs is
exactly the terminated-child handler. -/
theorem hcs_kill_eq (st : shell_state) (p jid : Nat)
    (hfind : find_pid st p = some (jid, 0)) :
    handle_child_status st p (wstatus.signaled SIGKILL) =
      reap_result.ok (handle_terminated_child st jid 0 (wstatus.signaled SIGKILL)).1
        (handle_terminated_child st jid 0 (wstatus.signaled SIGKILL)).2 := by
  unfold handle_child_status
  simp only [hfind]

/-- Blocking wait on a foreground job whose live processes are all killed
by `SIGKILL`: every process is reaped in procs order (printing one signal
line each), the job ends `TERMINATED` with no live processes, every other
registry slot and the job list are untouched, and the oracle tail is left
unconsumed. -/
theorem wait_kill_trace : ∀ (ps : List process_t) (st : shell_state) (jid : Nat) (j : job)
    (tail : List wait_result),
    st.jid2job jid = some j → j.jid = jid → j.status = job_status.FOREGROUND →
    j.procs = ps → j.num_processes_alive = ps.length → jid ∈ st.job_list →
    (∀ jid2 j2, st.jid2job jid2 = some j2 → jid2 ≠ jid →
       ∀ p, p ∈ pids_of j → p ∉ pids_of j2) →
    ∃ st2, wait_for_job jid st
        (ps.map (fun p => wait_result.child p.pid (wstatus.signaled SIGKILL)) ++ tail) =
        wait_outcome.ok st2 (ps.map (fun _ => effect.msg (strsignal SIGKILL ++ "\n"))) tail ∧
      (∀ k, k ≠ jid → st2.jid2job k = st.jid2job k) ∧
      st2.job_list = st.job_list ∧
      st2.jid2job jid = some (if ps.isEmpty then j else killed_job j) := by
  intro ps
  induction ps with
  | nil =>
      intro st jid j tail hj hjid hfg hprocs hcount hmem hdisj
      have hn : ¬(j.status = job_status.FOREGROUND ∧ 0 < j.num_processes_alive) := by
        intro hc
        rw [hcount] at hc
        exact absurd hc.2 (by simp)
      refine ⟨st, ?_, fun k _ => rfl, rfl, hj⟩
      rw [List.map_nil, List.nil_append, wait_not_fg jid st j tail hj hn]
      rfl
  | cons p ps2 ih =>
      intro st jid j tail hj hjid hfg hprocs hcount hmem hdisj
      have hpos : 0 < j.num_processes_alive := by rw [hcount]; simp
      have hfind0 : find_proc_idx p.pid (j.procs.take j.num_processes_alive) = some 0 := by
        rw [hcount, hprocs, List.take_length]
        unfold find_proc_idx
        rw [if_pos rfl]
      have hpmem : p.pid ∈ pids_of j := by
        unfold pids_of
        rw [hcount, hprocs, List.take_length]
        exact List.mem_map_of_mem _ (List.mem_cons_self _ _)
      have hfind : find_pid st p.pid = some (jid, 0) :=
        find_pid_go_head st jid j p.pid hj hfind0
          (fun jid2 j2 hj2 hne => hdisj jid2 j2 hj2 hne p.pid hpmem) st.job_list hmem
      have hterm := handle_terminated_kill st jid j p ps2 hj hfg hprocs hcount
      have hhcs : handle_child_status st p.pid (wstatus.signaled SIGKILL) =
          reap_result.ok (update_job st (if ps2.length = 0 then killed_job j
            else with_procs j ps2))
            [effect.msg (strsignal SIGKILL ++ "\n")] := by
        rw [hcs_kill_eq st p.pid jid hfind, hterm]
      rw [List.map_cons, List.cons_append,
        wait_for_job_child jid st p.pid (wstatus.signaled SIGKILL) _ j hj ⟨hfg, hpos⟩]
      simp only [hhcs]
      cases ps2 with
      | nil =>
          rw [if_pos (show ([] : List process_t).length = 0 from rfl)]
          have hj2 : (update_job st (killed_job j)).jid2job jid = some (killed_job j) := by
            rw [update_job_lookup]
            exact if_pos (hjid.symm.trans rfl)
          have hn2 : ¬((killed_job j).status = job_status.FOREGROUND ∧
              0 < (killed_job j).num_processes_alive) := by
            intro hc
            exact absurd hc.1 (by simp [killed_job])
          simp only [List.map_nil, List.nil_append,
            wait_not_fg jid _ (killed_job j) tail hj2 hn2]
          refine ⟨update_job st (killed_job j), rfl, ?_, rfl, hj2⟩
          intro k hk
          rw [update_job_lookup]
          exact if_neg (fun he => hk (he.trans hjid))
      | cons q qs =>
          rw [if_neg (show ¬((q :: qs).length = 0) by simp)]
          have hj1 : (update_job st (with_procs j (q :: qs))).jid2job jid =
              some (with_procs j (q :: qs)) := by
            rw [update_job_lookup]
            exact if_pos (hjid.symm.trans rfl)
          have hdisj1 : ∀ jid2 j2,
              (update_job st (with_procs j (q :: qs))).jid2job jid2 = some j2 →
              jid2 ≠ jid →
              ∀ r, r ∈ pids_of (with_procs j (q :: qs)) → r ∉ pids_of j2 := by
            intro jid2 j2 hj2 hne r hr
            rcases update_job_cases _ _ _ _ hj2 with ⟨he, _⟩ | ⟨_, hold⟩
            · exact absurd (he.trans hjid) hne
            · refine hdisj jid2 j2 hold hne r ?_
              unfold pids_of at hr ⊢
              rw [hcount, hprocs, List.take_length]
              simp only [with_procs, List.take_length] at hr
              exact List.mem_cons_of_mem _ hr
          obtain ⟨st2, hw, hoth, hlist, hslot⟩ :=
            ih (update_job st (with_procs j (q :: qs)))
              jid (with_procs j (q :: qs)) tail
              hj1 hjid hfg rfl rfl (by rw [update_job_list]; exact hmem) hdisj1
          simp only [hw]
          refine ⟨st2, by simp, ?_, by rw [hlist, update_job_list], ?_⟩
          · intro k hk
            rw [hoth k hk, update_job_lookup]
            exact if_neg (fun he => hk (he.trans hjid))
          · rw [hslot]
            rfl

theorem exit_go_nil (st : shell_state) (evs : List wait_result) :
    exit_builtin_go [] st evs = bi_result.exited 0 [] := rfl

theorem exit_go_cons (jid : Nat) (rest : List Nat) (st : shell_state)
    (evs : List wait_result) :
    exit_builtin_go (jid :: rest) st evs =
      match st.jid2job jid with
      | none => exit_builtin_go rest st evs
      | some j =>
          match wait_for_job jid
              (update_job st { j with status := job_status.FOREGROUND }) evs with
          | wait_outcome.ok st2 effs2 r =>
              (exit_builtin_go rest st2 r).prepend (effect.sendsig j.pgid SIGKILL :: effs2)
          | wait_outcome.fatal c e => bi_result.fatal c (effect.sendsig j.pgid SIGKILL :: e)
          | wait_outcome.blocked e =>
              bi_result.blocked (effect.sendsig j.pgid SIGKILL :: e) := rfl

/-- The kill-event trace of a job-id list only depends on the slots the
list mentions. -/
theorem kill_events_congr (st st2 : shell_state) : ∀ (l : List Nat),
    (∀ k, k ∈ l → st2.jid2job k = st.jid2job k) →
    l.flatMap (fun k => match st2.jid2job k with
      | some j => job_kill_events j
      | none => []) =
    l.flatMap (fun k => match st.jid2job k with
      | some j => job_kill_events j
      | none => []) := by
  intro l
  induction l with
  | nil => intro _; rfl
  | cons a rest ih =>
      intro h
      rw [List.flatMap_cons, List.flatMap_cons,
        ih (fun k hk => h k (List.mem_cons_of_mem a hk)), h a (List.mem_cons_self a rest)]

/-- The `exit` builtin's job traversal: with each registered job's procs
reaped through `SIGKILL` observations, the traversal reaches `exit(0)`
and its effect trace sends `SIGKILL` to every registered job's process
group. -/
theorem exit_go_kills : ∀ (l : List Nat) (st : shell_state),
    jobs_wf st → pids_disjoint st → l.Nodup → (∀ k, k ∈ l → k ∈ st.job_list) →
    ∃ effs, exit_builtin_go l st
        (l.flatMap (fun k => match st.jid2job k with
          | some j => job_kill_events j
          | none => [])) = bi_result.exited 0 effs ∧
      ∀ jid j, jid ∈ l → st.jid2job jid = some j →
        effect.sendsig j.pgid SIGKILL ∈ effs := by
  intro l
  induction l with
  | nil =>
      intro st _ _ _ _
      exact ⟨[], rfl, fun jid j hjm _ => absurd hjm (List.not_mem_nil jid)⟩
  | cons a rest ih =>
      intro st hwf hdisj hnd hsub
      rw [List.flatMap_cons, exit_go_cons]
      cases hja : st.jid2job a with
      | none =>
          simp only [hja, List.nil_append]
          obtain ⟨effs, hE, hM⟩ := ih st hwf hdisj (List.Nodup.of_cons hnd)
            (fun k hk => hsub k (List.mem_cons_of_mem a hk))
          refine ⟨effs, hE, ?_⟩
          intro jid j hjm hj
          rcases List.mem_cons.mp hjm with he | hr
          · rw [he] at hj
            rw [hj] at hja
            cases hja
          · exact hM jid j hr hj
      | some j =>
          simp only [hja]
          obtain ⟨hjid, hlen⟩ := hwf a j hja
          have hanotr : a ∉ rest := (List.nodup_cons.mp hnd).1
          have hj1 : (update_job st { j with status := job_status.FOREGROUND }).jid2job a =
              some { j with status := job_status.FOREGROUND } := by
            rw [update_job_lookup]
            exact if_pos (hjid.symm.trans rfl)
          have hdisj1 : ∀ jid2 j2,
              (update_job st { j with status := job_status.FOREGROUND }).jid2job jid2 =
                some j2 → jid2 ≠ a →
              ∀ p, p ∈ pids_of { j with status := job_status.FOREGROUND } →
                p ∉ pids_of j2 := by
            intro jid2 j2 hj2 hne p hp
            rcases update_job_cases _ _ _ _ hj2 with ⟨he, _⟩ | ⟨_, hold⟩
            · exact absurd (he.trans hjid) hne
            · exact hdisj a j jid2 j2 hja hold (fun he => hne he.symm) p hp
          obtain ⟨st2, hw, hoth, hlist, hslot⟩ :=
            wait_kill_trace j.procs
              (update_job st { j with status := job_status.FOREGROUND }) a
              { j with status := job_status.FOREGROUND }
              (rest.flatMap (fun k => match st.jid2job k with
                | some jx => job_kill_events jx
                | none => []))
              hj1 hjid rfl rfl hlen
              (by rw [update_job_list]; exact hsub a (List.mem_cons_self a rest)) hdisj1
          have hw2 : wait_for_job a
              (update_job st { j with status := job_status.FOREGROUND })
              (job_kill_events j ++ rest.flatMap (fun k => match st.jid2job k with
                | some jx => job_kill_events jx
                | none => [])) =
              wait_outcome.ok st2 (kill_msgs j)
                (rest.flatMap (fun k => match st.jid2job k with
                  | some jx => job_kill_events jx
                  | none => [])) := hw
          simp only [hw2]
          have hoth2 : ∀ k, k ≠ a → st2.jid2job k = st.jid2job k := by
            intro k hk
            rw [hoth k hk, update_job_lookup]
            exact if_neg (fun he => hk (he.trans hjid))
          have hcongr : ∀ k, k ∈ rest → st2.jid2job k = st.jid2job k :=
            fun k hk => hoth2 k (fun he => hanotr (he ▸ hk))
          have hwf2 : jobs_wf st2 := by
            intro k jk hk
            by_cases hka : k = a
            · subst hka
              rw [hslot] at hk
              have hjk := (Option.some.inj hk).symm
              subst hjk
              by_cases hpe : j.procs.isEmpty
              · rw [if_pos hpe]
                exact ⟨hjid, hlen⟩
              · rw [if_neg hpe]
                exact ⟨hjid, rfl⟩
            · rw [hoth2 k hka] at hk
              exact hwf k jk hk
          have hpids_a : ∀ jk, st2.jid2job a = some jk → pids_of jk = [] := by
            intro jk hk
            rw [hslot] at hk
            have hjk := (Option.some.inj hk).symm
            subst hjk
            by_cases hpe : j.procs.isEmpty
            · rw [if_pos hpe]
              unfold pids_of
              rw [List.isEmpty_iff] at hpe
              rw [hpe, List.take_nil, List.map_nil]
            · rw [if_neg hpe]
              rfl
          have hdisj2 : pids_disjoint st2 := by
            intro j1d jb1 j2d jb2 h1 h2 hne p hp
            by_cases h1a : j1d = a
            · subst h1a
              rw [hpids_a jb1 h1] at hp
              exact absurd hp (List.not_mem_nil p)
            · by_cases h2a : j2d = a
              · subst h2a
                rw [hpids_a jb2 h2]
                exact List.not_mem_nil p
              · rw [hoth2 j1d h1a] at h1
                rw [hoth2 j2d h2a] at h2
                exact hdisj j1d jb1 j2d jb2 h1 h2 hne p hp
          have hsub2 : ∀ k, k ∈ rest → k ∈ st2.job_list := by
            intro k hk
            rw [hlist, update_job_list]
            exact hsub k (List.mem_cons_of_mem a hk)
          obtain ⟨effs2, hE, hM⟩ := ih st2 hwf2 hdisj2 (List.Nodup.of_cons hnd) hsub2
          rw [kill_events_congr st st2 rest hcongr] at hE
          rw [hE]
          refine ⟨effect.sendsig j.pgid SIGKILL :: (kill_msgs j ++ effs2), rfl, ?_⟩
          intro jid jb hjm hjb
          rcases List.mem_cons.mp hjm with he | hr
          · rw [he] at hjb
            rw [hjb] at hja
            have hjbj := Option.some.inj hja
            rw [← hjbj]
            exact List.mem_cons_self _ _
          · have hjb2 : st2.jid2job jid = some jb := by
              rw [hcongr jid hr]
              exact hjb
            exact List.mem_cons_of_mem _ (List.mem_append_right _ (hM jid jb hr hjb2))

/-- The one-foreground-job witness state satisfies the registry
well-formedness hypotheses. -/
theorem fg_job_state_wf : jobs_wf fg_job_state := by
  intro jid j hj
  simp only [fg_job_state] at hj
  by_cases h1 : jid = 1
  · rw [if_pos h1] at hj
    have hje := Option.some.inj hj
    rw [← hje]
    exact ⟨h1.symm, rfl⟩
  · rw [if_neg h1] at hj
    cases hj

/-- The one-foreground-job witness state has pairwise disjoint live pids
(vacuously: a single job). -/
theorem fg_job_state_disjoint : pids_disjoint fg_job_state := by
  intro jid1 j1 jid2 j2 h1 h2 hne p hp
  simp only [fg_job_state] at h1 h2
  by_cases ha : jid1 = 1
  · by_cases hb : jid2 = 1
    · exact absurd (ha.trans hb.symm) hne
    · rw [if_neg hb] at h2
      cases h2
  · rw [if_neg ha] at h1
    cases h1

/-- Claim C5 (amended): on the `exit` builtin the shell sends `SIGKILL`
to every registered job's process group and synchronously reaps them all
before terminating its own process with success status; on reading
end-of-file at the interactive prompt it terminates with success status
immediately, without killing or reaping its live jobs (the final
iteration produces no effect at all). -/
theorem exit_kills_eof_spares (st : shell_state) (env : spawn_env)
    (evs : List wait_result) (hwf : jobs_wf st) (hdisj : pids_disjoint st)
    (hnd : st.job_list.Nodup) :
    shell_iteration st shell_input.eof env evs = pl_result.exited 0 [] ∧
    ∃ effs, exit_builtin st (registry_kill_events st) = bi_result.exited 0 effs ∧
      ∀ jid j, jid ∈ st.job_list → st.jid2job jid = some j →
        effect.sendsig j.pgid SIGKILL ∈ effs := by
  refine ⟨shell_iteration_eof st env evs, ?_⟩
  obtain ⟨effs, hE, hM⟩ := exit_go_kills st.job_list st hwf hdisj hnd (fun _ hk => hk)
  exact ⟨effs, hE, hM⟩

/-- Witness for the amended claim C5 at a state holding one registered
job with one live process (pid 42, process group 42). -/
theorem exit_kills_eof_spares_witness :
    shell_iteration fg_job_state shell_input.eof (all_ok_env 0) [] =
      pl_result.exited 0 [] ∧
    ∃ effs, exit_builtin fg_job_state (registry_kill_events fg_job_state) =
        bi_result.exited 0 effs ∧
      ∀ jid j, jid ∈ fg_job_state.job_list → fg_job_state.jid2job jid = some j →
        effect.sendsig j.pgid SIGKILL ∈ effs :=
  exit_kills_eof_spares fg_job_state (all_ok_env 0) [] fg_job_state_wf
    fg_job_state_disjoint (by simp [fg_job_state])

end Cush
